import Mathlib

/-!
Story sets: deduplication and issue-label derivation

A shallow embedding of `story_set.go` (package `main` of tracksuit) and the
properties of `StorySet.Dedupe`, `StorySet.IssueLabels` and the filters and
aggregate queries of `StorySet`.

Conventions of the embedding:

* a Go slice is a `List`; `append(xs, x)` is `xs ++ [x]`;
* a Go `map[K]V` is an association list with pairwise distinct keys, kept in
  insertion order; ranging over a map visits its entries in an arbitrary
  order, which is modelled by quantifying over every permutation of the
  entries (`DedupeRun`);
* `log.Fatalln` ends the process: `IssueLabels` returns `Except.error` with
  the offending state value;
* a method call through a nil pointer panics: `LastAccepted` returns
  `Except.error`; a time is its number of nanoseconds since the Unix epoch;
* the library function `strings.EqualFold` is a parameter of `WithLabel`.
-/

namespace Tracksuit

/-! ## Data model -/

/-- Modelled from the spec: `tracker.Label` of the imported package
`github.com/xoebus/go-tracker`; only `Name` is read by `story_set.go`. -/
structure Label where
  ID : Int
  ProjectID : Int
  Name : String
deriving DecidableEq, Repr

/-- Modelled from the spec: `tracker.Story` of the imported package
`github.com/xoebus/go-tracker`, restricted to the fields the data model
lists. `ID` is a Go `int`, `Type` (here `StoryType`, as `Type` is reserved)
and `State` are string types and `AcceptedAt` is a nullable timestamp
(nanoseconds since the Unix epoch). -/
structure Story where
  ID : Int
  Name : String
  Description : String
  StoryType : String
  State : String
  Labels : List Label
  AcceptedAt : Option Int
deriving DecidableEq, Repr

/-- The type `StorySet []tracker.Story`. -/
abbrev StorySet := List Story

/-- The zero value of `tracker.Story` (what `var oldestStory tracker.Story`
holds before the first assignment). -/
def zeroStory : Story :=
  { ID := 0, Name := "", Description := "", StoryType := "", State := "",
    Labels := [], AcceptedAt := none }

/-- The label constants of `story_set.go`. -/
def IssueLabelUnscheduled : String := "unscheduled"
def IssueLabelScheduled : String := "scheduled"
def IssueLabelInFlight : String := "in-flight"
def IssueLabelBug : String := "bug"
def IssueLabelEnhancement : String := "enhancement"

/-! ## Dedupe -/

/-- The struct `dupeEquivalence`. -/
structure dupeEquivalence where
  name : String
  description : String
  labels : String
deriving DecidableEq, Repr

/-- The call `sort.Strings`: ascending order of strings. Go compares strings
byte by byte; on UTF-8 text that is the lexicographic order of the lists of
characters, which is the order `≤` of `String` (`sortStrings_eq`). -/
def sortStrings (names : List String) : List String :=
  names.insertionSort (fun a b => a.toList ≤ b.toList)

/-- The inner loop of `Dedupe` collecting `label.Name` for each label. -/
def labelNames (story : Story) : List String :=
  story.Labels.foldl (fun acc label => acc ++ [label.Name]) []

/-- The value `eq` built for a story in the first loop of `Dedupe`. -/
def equivalenceOf (story : Story) : dupeEquivalence :=
  { name := story.Name
    description := story.Description
    labels := String.intercalate "," (sortStrings (labelNames story)) }

/-- The statement `byEquivalence[eq] = append(byEquivalence[eq], story)` on a
map kept as an association list. -/
def mapAppend (m : List (dupeEquivalence × StorySet)) (eq : dupeEquivalence)
    (story : Story) : List (dupeEquivalence × StorySet) :=
  match m with
  | [] => [(eq, [story])]
  | (k, stories) :: rest =>
    if k = eq then (k, stories ++ [story]) :: rest
    else (k, stories) :: mapAppend rest eq story

/-- The first loop of `Dedupe`: the map `byEquivalence`. -/
def byEquivalence (set : StorySet) : List (dupeEquivalence × StorySet) :=
  set.foldl (fun m story => mapAppend m (equivalenceOf story) story) []

/-- The loop choosing `oldestStory` among the stories of one bucket. -/
def oldestOf (stories : StorySet) : Story :=
  stories.foldl
    (fun oldestStory story =>
      if oldestStory.ID = 0 ∨ story.ID < oldestStory.ID then story else oldestStory)
    zeroStory

/-- One iteration of the second loop of `Dedupe` on the pair
`(deduped, dupes)`. -/
def dedupeStep (acc : StorySet × StorySet) (stories : StorySet) : StorySet × StorySet :=
  match stories with
  | [only] => (acc.1 ++ [only], acc.2)
  | _ =>
    let oldestStory := oldestOf stories
    (acc.1 ++ [oldestStory],
      stories.foldl
        (fun dupes story => if story.ID ≠ oldestStory.ID then dupes ++ [story] else dupes)
        acc.2)

/-- The second loop of `Dedupe`, visiting the map entries in the given order. -/
def dedupeLoop (order : List (dupeEquivalence × StorySet)) : StorySet × StorySet :=
  order.foldl (fun acc entry => dedupeStep acc entry.2) ([], [])

/-- The method `Dedupe`, with the map visited in insertion order. -/
def Dedupe (set : StorySet) : StorySet × StorySet :=
  dedupeLoop (byEquivalence set)

/-- The possible results of `Dedupe`: the map may be visited in any order. -/
def DedupeRun (set : StorySet) (out : StorySet × StorySet) : Prop :=
  ∃ order, List.Perm order (byEquivalence set) ∧ out = dedupeLoop order

/-! ## Aggregate predicates and IssueLabels -/

deriving instance DecidableEq for Except

/-- The method `AllAccepted`. -/
def AllAccepted : StorySet → Bool
  | [] => true
  | story :: rest => if story.State ≠ "accepted" then false else AllAccepted rest

/-- The first loop of `IssueLabels`: the flags `(hasBugs, hasFeatures)`. -/
def typeFlags (set : StorySet) : Bool × Bool :=
  set.foldl
    (fun flags story =>
      if story.StoryType = "feature" then (flags.1, true)
      else if story.StoryType = "bug" then (true, flags.2)
      else flags)
    (false, false)

/-- The labels after the type classification of `IssueLabels`. -/
def typeLabels (set : StorySet) : List String :=
  let flags := typeFlags set
  if flags.2 then [IssueLabelEnhancement]
  else if flags.1 then [IssueLabelBug]
  else []

/-- The second loop of `IssueLabels` with the statements after it, from the
state `(labels, allUnscheduled)`. -/
def scanStates (labels : List String) (allUnscheduled : Bool) :
    StorySet → Except String (List String)
  | [] =>
    if allUnscheduled then .ok (labels ++ [IssueLabelUnscheduled])
    else .ok (labels ++ [IssueLabelScheduled])
  | story :: rest =>
    if story.State = "accepted" then scanStates labels allUnscheduled rest
    else if story.State = "unscheduled" then scanStates labels allUnscheduled rest
    else if story.State = "started" ∨ story.State = "finished" ∨
        story.State = "delivered" ∨ story.State = "rejected" then
      .ok (labels ++ [IssueLabelInFlight])
    else if story.State = "unstarted" ∨ story.State = "planned" then
      scanStates labels false rest
    else .error story.State

/-- The method `IssueLabels`; `log.Fatalln("unknown story state:", s)` is the
result `Except.error s`. -/
def IssueLabels (set : StorySet) : Except String (List String) :=
  let labels := typeLabels set
  if AllAccepted set then .ok labels
  else scanStates labels true set

/-! ## Concrete stories used as witnesses -/

/-- A story with the given id, type and state, named `"login"`, labelled
`"ui"` and `"api"`. -/
def mkStory (id : Int) (type state : String) : Story :=
  { ID := id, Name := "login", Description := "broken", StoryType := type, State := state,
    Labels := [⟨1, 1, "ui"⟩, ⟨2, 1, "api"⟩], AcceptedAt := none }

/-! ## Auxiliary definitions for `Dedupe` -/

/-- The first loop of `Dedupe` continued from a map `m`. -/
def buildFrom (m : List (dupeEquivalence × StorySet)) (set : StorySet) :
    List (dupeEquivalence × StorySet) :=
  set.foldl (fun m story => mapAppend m (equivalenceOf story) story) m

/-- A map `m` holds exactly the stories of `l`: its keys are pairwise distinct,
the bucket of a key is the stories of `l` with that key, in the order of `l`,
no bucket is empty and every story of `l` has its key in the map. -/
structure MapOf (m : List (dupeEquivalence × StorySet)) (l : StorySet) : Prop where
  nodupKeys : (m.map Prod.fst).Nodup
  bucket : ∀ e ∈ m, e.2 = l.filter (fun s => decide (equivalenceOf s = e.1))
  nonempty : ∀ e ∈ m, e.2 ≠ []
  complete : ∀ s ∈ l, equivalenceOf s ∈ m.map Prod.fst

/-- The body of the loop choosing `oldestStory`. -/
def olderOf (oldestStory story : Story) : Story :=
  if oldestStory.ID = 0 ∨ story.ID < oldestStory.ID then story else oldestStory

/-- The stories of a bucket appended to `dupes`. -/
def dupesOf (stories : StorySet) : StorySet :=
  stories.filter (fun story => decide (story.ID ≠ (oldestOf stories).ID))

/-! ## Sample collections -/

/-- Two stories with the same name, description and labels (ids 5 and 3), and
a third story with another name. -/
def sampleDupes : StorySet :=
  [mkStory 5 "bug" "started", mkStory 3 "feature" "unscheduled",
    { mkStory 4 "chore" "accepted" with Name := "logout" }]

/-- Two stories with the same name, description and label set, ids 5 and 3. -/
def twoDupes : StorySet :=
  [mkStory 5 "bug" "started", mkStory 3 "feature" "unscheduled"]

/-- Two stories whose labels are listed in opposite orders and whose other
fields, apart from name and description, all differ. -/
def permutedA : Story :=
  { ID := 1, Name := "n", Description := "d", StoryType := "bug", State := "started",
    Labels := [⟨1, 1, "ui"⟩, ⟨2, 1, "api"⟩], AcceptedAt := none }

/-- The second of the two stories, labels `api` then `ui`. -/
def permutedB : Story :=
  { ID := 2, Name := "n", Description := "d", StoryType := "chore", State := "accepted",
    Labels := [⟨2, 1, "api"⟩, ⟨1, 1, "ui"⟩], AcceptedAt := some 7 }

/-! ## States and the two stages of the specification -/

/-- The states `started`, `finished`, `delivered` and `rejected`. -/
def inFlightState (st : String) : Prop :=
  st = "started" ∨ st = "finished" ∨ st = "delivered" ∨ st = "rejected"

/-- The states `unstarted` and `planned`. -/
def scheduledState (st : String) : Prop :=
  st = "unstarted" ∨ st = "planned"

/-- The states `accepted` and `unscheduled`. -/
def idleState (st : String) : Prop :=
  st = "accepted" ∨ st = "unscheduled"

/-- The eight states named by the cases of the `switch` of `IssueLabels`. -/
def knownState (st : String) : Prop :=
  idleState st ∨ inFlightState st ∨ scheduledState st

instance (st : String) : Decidable (inFlightState st) := by
  unfold inFlightState
  infer_instance

instance (st : String) : Decidable (scheduledState st) := by
  unfold scheduledState
  infer_instance

instance (st : String) : Decidable (idleState st) := by
  unfold idleState
  infer_instance

instance (st : String) : Decidable (knownState st) := by
  unfold knownState
  infer_instance

/-- Stage 1 in the words of the specification: `enhancement` if some story is a
feature, else `bug` if some story is a bug, else no label. -/
def stage1Labels (set : StorySet) : List String :=
  if ∃ s ∈ set, s.StoryType = "feature" then ["enhancement"]
  else if ∃ s ∈ set, s.StoryType = "bug" then ["bug"]
  else []

/-- Stage 2 in the words of the specification, for known states: no label if
all stories are accepted, else `in-flight` if some story is in flight, else
`scheduled` if some story is unstarted or planned, else `unscheduled`. -/
def stage2Labels (set : StorySet) : List String :=
  if ∀ s ∈ set, s.State = "accepted" then []
  else if ∃ s ∈ set, inFlightState s.State then ["in-flight"]
  else if ∃ s ∈ set, scheduledState s.State then ["scheduled"]
  else ["unscheduled"]

/-! ## Sample groups of stories -/

/-- All stories accepted, one of them a feature. -/
def acceptedGroup : StorySet :=
  [mkStory 1 "chore" "accepted", mkStory 2 "feature" "accepted"]

/-- One started bug and one unscheduled story. -/
def startedGroup : StorySet :=
  [mkStory 1 "bug" "started", mkStory 2 "chore" "unscheduled"]

/-- Two unstarted stories that are neither features nor bugs. -/
def unstartedGroup : StorySet :=
  [mkStory 1 "chore" "unstarted", mkStory 2 "release" "unstarted"]

/-- Three unscheduled chores. -/
def unscheduledGroup : StorySet :=
  [mkStory 1 "chore" "unscheduled", mkStory 2 "chore" "unscheduled",
    mkStory 3 "chore" "unscheduled"]

/-- One accepted and one unscheduled story. -/
def mixedGroup : StorySet :=
  [mkStory 1 "chore" "accepted", mkStory 2 "chore" "unscheduled"]

/-- Scanning `set` from left to right reaches a story whose state `st` is none
of the eight known states before any story that is started, finished,
delivered or rejected: the stories before it are all accepted, unscheduled,
unstarted or planned. -/
def UnknownReached (set : StorySet) (st : String) : Prop :=
  ∃ pre s post, set = pre ++ s :: post ∧
    (∀ t ∈ pre, knownState t.State ∧ ¬ inFlightState t.State) ∧
    ¬ knownState s.State ∧ st = s.State

/-- A scheduled story, a story with a state that is not known, and a started
story. -/
def unknownGroup : StorySet :=
  [mkStory 1 "bug" "unstarted", mkStory 2 "bug" "blocked", mkStory 3 "bug" "started"]

/-! ## Filters and aggregate queries -/

/-- The inner loop of `WithLabel`: whether some label of the story has a name
equal to `label` under `equalFold` (the loop stops at the first match). -/
def hasLabelFold (equalFold : String → String → Bool) (label : String) : List Label → Bool
  | [] => false
  | storyLabel :: rest =>
    if equalFold storyLabel.Name label then true else hasLabelFold equalFold label rest

/-- The method `WithLabel`. The library function `strings.EqualFold` is the
parameter `equalFold`. -/
def WithLabel (equalFold : String → String → Bool) (set : StorySet) (label : String) :
    StorySet :=
  set.foldl
    (fun withLabel story =>
      if hasLabelFold equalFold label story.Labels then withLabel ++ [story] else withLabel)
    []

/-- Modelled from the spec: the ASCII level of the library function
`strings.EqualFold`, equality of the two strings after the letters `A` to `Z`
are replaced by `a` to `z`. -/
def asciiEqualFold (s t : String) : Bool :=
  decide (s.toList.map Char.toLower = t.toList.map Char.toLower)

/-- Modelled from the spec: the constant `tracker.StoryStateUnscheduled` of the
imported package, the distinguished `unscheduled` marker. -/
def StoryStateUnscheduled : String := "unscheduled"

/-- Modelled from the spec: the constant `tracker.StoryTypeChore` of the
imported package, the type `chore`. -/
def StoryTypeChore : String := "chore"

/-- The method `Unscheduled`. -/
def Unscheduled : StorySet → Bool
  | [] => true
  | story :: rest => if story.StoryType ≠ StoryStateUnscheduled then false else Unscheduled rest

/-- The method `Untriaged`. -/
def Untriaged : StorySet → Bool
  | [] => true
  | story :: rest => if story.StoryType ≠ StoryTypeChore then false else Untriaged rest

/-- The inner loop of `HasPR` on the labels of one story. -/
def hasPRLabel : List Label → Bool
  | [] => false
  | label :: rest => if label.Name = "has-pr" then true else hasPRLabel rest

/-- The method `HasPR`. -/
def HasPR : StorySet → Bool
  | [] => false
  | story :: rest => if hasPRLabel story.Labels then true else HasPR rest

/-- The loop of `LastAccepted` from the current value of `lastAccepted`. A
time is its number of nanoseconds since the Unix epoch and `After` is `<`
read from the right. Calling `After` through the nil pointer `AcceptedAt` of a
story is a run-time panic, the result `Except.error`. -/
def lastAcceptedFrom (lastAccepted : Int) : StorySet → Except String Int
  | [] => .ok lastAccepted
  | story :: rest =>
    match story.AcceptedAt with
    | none => .error "nil pointer dereference"
    | some acceptedAt =>
      if lastAccepted < acceptedAt then lastAcceptedFrom acceptedAt rest
      else lastAcceptedFrom lastAccepted rest

/-- The method `LastAccepted`; `time.Unix(0, 0)` is the time `0`. -/
def LastAccepted (set : StorySet) : Except String Int :=
  lastAcceptedFrom 0 set

/-- The map `storyStateLabels`, from label name to colour. -/
def storyStateLabels : List (String × String) :=
  [(IssueLabelUnscheduled, "e4eff7"), (IssueLabelScheduled, "f4f4f4"),
    (IssueLabelInFlight, "f3f3d1"), (IssueLabelBug, ""), (IssueLabelEnhancement, "")]

/-- The map `issueOnlyLabels`. -/
def issueOnlyLabels : List (String × String) :=
  [("discuss", "c2e0c6")]

/-- A story with the given id, labels and acceptance time. -/
def mkLabelled (id : Int) (labels : List String) (acceptedAt : Option Int) : Story :=
  { ID := id, Name := "login", Description := "broken", StoryType := "chore",
    State := "accepted", Labels := labels.map (fun n => ⟨0, 1, n⟩), AcceptedAt := acceptedAt }

/-- One story labelled `Bug` and one labelled `docs`. -/
def bugGroup : StorySet :=
  [mkLabelled 1 ["Bug"] none, mkLabelled 2 ["docs"] none]

/-- One story whose only label is `Has-PR`. -/
def hasPRGroup : StorySet :=
  [mkLabelled 1 ["Has-PR"] none]

/-- One story without an acceptance time. -/
def unacceptedGroup : StorySet :=
  [mkLabelled 1 [] none]

/-- One story accepted five nanoseconds before the Unix epoch. -/
def beforeEpochGroup : StorySet :=
  [mkLabelled 1 [] (some (-5))]

/-- Three stories accepted at the times 5, 9 and 7. -/
def acceptedTimesGroup : StorySet :=
  [mkLabelled 1 [] (some 5), mkLabelled 2 [] (some 9), mkLabelled 3 [] (some 7)]

/-- Two stories with the same key and the same id 7 that differ only in their
state. -/
def sameIdGroup : StorySet :=
  [mkStory 7 "bug" "started", mkStory 7 "bug" "accepted"]

/-- The separator of `strings.Join(labelNames, ",")`. -/
def comma : Char := ','

/-- The characters of `strings.Join(names, ",")`, for names given by their
characters. -/
def joinedChars : List (List Char) → List Char
  | [] => []
  | a :: rest => a ++ (rest.map (fun x => comma :: x)).flatten

/-- A story without labels and a story whose single label has the empty name. -/
def noLabelStory : Story := mkLabelled 1 [] none

/-- The story whose single label has the empty name. -/
def emptyLabelStory : Story := mkLabelled 2 [""] none

/-! ## Lemmas on the map `byEquivalence` -/

theorem byEquivalence_eq (set : StorySet) : byEquivalence set = buildFrom [] set := rfl

theorem buildFrom_append (m : List (dupeEquivalence × StorySet)) (l : StorySet) (s : Story) :
    buildFrom m (l ++ [s]) = mapAppend (buildFrom m l) (equivalenceOf s) s := by
  simp [buildFrom, List.foldl_append]

theorem mapAppend_keys (m : List (dupeEquivalence × StorySet)) (k : dupeEquivalence)
    (s : Story) :
    (mapAppend m k s).map Prod.fst =
      if k ∈ m.map Prod.fst then m.map Prod.fst else m.map Prod.fst ++ [k] := by
  induction m with
  | nil => simp [mapAppend]
  | cons e rest ih =>
    obtain ⟨k', b⟩ := e
    by_cases h : k' = k
    · simp [mapAppend, h]
    · have h' : ¬ k = k' := fun c => h c.symm
      simp only [mapAppend, h, if_false, List.map_cons, ih, List.mem_cons, h', false_or]
      split <;> simp

theorem mapAppend_of_not_mem (m : List (dupeEquivalence × StorySet)) (k : dupeEquivalence)
    (s : Story) (h : k ∉ m.map Prod.fst) : mapAppend m k s = m ++ [(k, [s])] := by
  induction m with
  | nil => simp [mapAppend]
  | cons e rest ih =>
    obtain ⟨k', b⟩ := e
    simp only [List.map_cons, List.mem_cons, not_or] at h
    have h' : ¬ k' = k := fun c => h.1 c.symm
    simp [mapAppend, h', ih h.2]

theorem mem_mapAppend (m : List (dupeEquivalence × StorySet)) (k : dupeEquivalence)
    (s : Story) (hm : (m.map Prod.fst).Nodup) (e : dupeEquivalence × StorySet)
    (he : e ∈ mapAppend m k s) :
    (e ∈ m ∧ e.1 ≠ k) ∨
      (e.1 = k ∧ ((∃ b, (k, b) ∈ m ∧ e.2 = b ++ [s]) ∨ (k ∉ m.map Prod.fst ∧ e.2 = [s]))) := by
  induction m with
  | nil =>
    simp only [mapAppend, List.mem_singleton] at he
    subst he
    simp
  | cons e' rest ih =>
    obtain ⟨k', b⟩ := e'
    simp only [List.map_cons, List.nodup_cons] at hm
    by_cases h : k' = k
    · subst h
      simp only [mapAppend, if_true, List.mem_cons] at he
      rcases he with he | he
      · subst he
        right
        exact ⟨rfl, Or.inl ⟨b, by simp, rfl⟩⟩
      · left
        refine ⟨by simp [he], fun hk => hm.1 ?_⟩
        rw [← hk]
        exact List.mem_map_of_mem Prod.fst he
    · simp only [mapAppend, h, if_false, List.mem_cons] at he
      rcases he with he | he
      · subst he
        left
        exact ⟨by simp, h⟩
      · rcases ih hm.2 he with ⟨h1, h2⟩ | ⟨h1, ⟨b', hb', h2⟩ | ⟨h2, h3⟩⟩
        · left
          exact ⟨by simp [h1], h2⟩
        · right
          exact ⟨h1, Or.inl ⟨b', by simp [hb'], h2⟩⟩
        · right
          refine ⟨h1, Or.inr ⟨?_, h3⟩⟩
          simp only [List.map_cons, List.mem_cons, not_or]
          exact ⟨fun c => h c.symm, h2⟩

theorem MapOf.nil : MapOf [] [] :=
  ⟨by simp, by simp, by simp, by simp⟩

theorem MapOf.mapAppend {m : List (dupeEquivalence × StorySet)} {l : StorySet}
    (h : MapOf m l) (s : Story) : MapOf (mapAppend m (equivalenceOf s) s) (l ++ [s]) := by
  refine ⟨?_, ?_, ?_, ?_⟩
  · rw [mapAppend_keys]
    split
    · exact h.nodupKeys
    · rename_i hk
      exact List.Nodup.append h.nodupKeys (by simp) (by simpa using hk)
  · intro e he
    rcases mem_mapAppend m _ s h.nodupKeys e he with ⟨h1, h2⟩ | ⟨h1, ⟨b, hb, h2⟩ | ⟨h2, h3⟩⟩
    · have : ¬ equivalenceOf s = e.1 := fun c => h2 c.symm
      simp [List.filter_append, List.filter_cons, this, h.bucket e h1]
    · have hb' := h.bucket _ hb
      simp only at hb'
      simp [List.filter_append, List.filter_cons, h1, h2, hb']
    · have : l.filter (fun t => decide (equivalenceOf t = equivalenceOf s)) = [] := by
        rw [List.filter_eq_nil_iff]
        intro t ht c
        simp only [decide_eq_true_eq] at c
        exact h2 (c ▸ h.complete t ht)
      simp [List.filter_append, List.filter_cons, h1, h3, this]
  · intro e he
    rcases mem_mapAppend m _ s h.nodupKeys e he with ⟨h1, _⟩ | ⟨_, ⟨b, _, h2⟩ | ⟨_, h3⟩⟩
    · exact h.nonempty e h1
    · simp [h2]
    · simp [h3]
  · intro t ht
    rw [mapAppend_keys]
    simp only [List.mem_append, List.mem_singleton] at ht
    rcases ht with ht | ht
    · split
      · exact h.complete t ht
      · exact List.mem_append_left _ (h.complete t ht)
    · subst ht
      split
      · assumption
      · simp

theorem MapOf.byEquivalence (set : StorySet) : MapOf (byEquivalence set) set := by
  induction set using List.reverseRecOn with
  | nil => exact MapOf.nil
  | append_singleton l s ih =>
    rw [byEquivalence_eq, buildFrom_append, ← byEquivalence_eq]
    exact ih.mapAppend s

theorem mapAppend_flatten (m : List (dupeEquivalence × StorySet)) (k : dupeEquivalence)
    (s : Story) :
    List.Perm ((mapAppend m k s).map Prod.snd).flatten ((m.map Prod.snd).flatten ++ [s]) := by
  induction m with
  | nil => simp [mapAppend]
  | cons e rest ih =>
    obtain ⟨k', b⟩ := e
    by_cases h : k' = k
    · simp only [mapAppend, h, if_true, List.map_cons, List.flatten_cons, List.append_assoc]
      exact List.Perm.append_left b List.perm_append_comm
    · simp only [mapAppend, h, if_false, List.map_cons, List.flatten_cons, List.append_assoc]
      exact List.Perm.append_left b ih

theorem byEquivalence_flatten (set : StorySet) :
    List.Perm ((byEquivalence set).map Prod.snd).flatten set := by
  induction set using List.reverseRecOn with
  | nil => simp [byEquivalence]
  | append_singleton l s ih =>
    rw [byEquivalence_eq, buildFrom_append, ← byEquivalence_eq]
    exact (mapAppend_flatten _ _ s).trans (List.Perm.append_right [s] ih)

/-! ## Lemmas on the second loop of `Dedupe` -/

theorem oldestOf_eq (stories : StorySet) : oldestOf stories = stories.foldl olderOf zeroStory :=
  rfl

theorem oldestOf_cons (x : Story) (xs : StorySet) :
    oldestOf (x :: xs) = xs.foldl olderOf x := by
  simp [oldestOf_eq, olderOf, zeroStory]

theorem foldl_olderOf_mem (xs : StorySet) (o : Story) : xs.foldl olderOf o ∈ o :: xs := by
  induction xs generalizing o with
  | nil => simp
  | cons x rest ih =>
    simp only [List.foldl_cons]
    have h := ih (olderOf o x)
    simp only [List.mem_cons] at h ⊢
    rcases h with h | h
    · rw [h]
      unfold olderOf
      split
      · exact Or.inr (Or.inl rfl)
      · exact Or.inl rfl
    · exact Or.inr (Or.inr h)

theorem oldestOf_mem (stories : StorySet) (h : stories ≠ []) : oldestOf stories ∈ stories := by
  cases stories with
  | nil => exact absurd rfl h
  | cons x xs =>
    rw [oldestOf_cons]
    exact foldl_olderOf_mem xs x

theorem foldl_olderOf_le (xs : StorySet) (o : Story) (ho : 0 < o.ID)
    (hxs : ∀ t ∈ xs, 0 < t.ID) :
    (xs.foldl olderOf o).ID ≤ o.ID ∧ ∀ t ∈ xs, (xs.foldl olderOf o).ID ≤ t.ID := by
  induction xs generalizing o with
  | nil => simp
  | cons x rest ih =>
    have hx : 0 < x.ID := hxs x (by simp)
    have hrest : ∀ t ∈ rest, 0 < t.ID := fun t ht => hxs t (by simp [ht])
    have hpos : 0 < (olderOf o x).ID := by
      unfold olderOf
      split <;> assumption
    have hstep : (olderOf o x).ID ≤ o.ID ∧ (olderOf o x).ID ≤ x.ID := by
      unfold olderOf
      split
      · rename_i hc
        rcases hc with hc | hc
        · omega
        · omega
      · rename_i hc
        simp only [not_or, not_lt] at hc
        exact ⟨le_refl _, hc.2⟩
    obtain ⟨h1, h2⟩ := ih (olderOf o x) hpos hrest
    simp only [List.foldl_cons]
    refine ⟨le_trans h1 hstep.1, ?_⟩
    intro t ht
    simp only [List.mem_cons] at ht
    rcases ht with ht | ht
    · subst ht
      exact le_trans h1 hstep.2
    · exact h2 t ht

theorem oldestOf_le (stories : StorySet) (hpos : ∀ t ∈ stories, 0 < t.ID) :
    ∀ t ∈ stories, (oldestOf stories).ID ≤ t.ID := by
  cases stories with
  | nil => simp
  | cons x xs =>
    rw [oldestOf_cons]
    have hx : 0 < x.ID := hpos x (by simp)
    have hxs : ∀ t ∈ xs, 0 < t.ID := fun t ht => hpos t (by simp [ht])
    obtain ⟨h1, h2⟩ := foldl_olderOf_le xs x hx hxs
    intro t ht
    simp only [List.mem_cons] at ht
    rcases ht with ht | ht
    · subst ht
      exact h1
    · exact h2 t ht

theorem foldl_dupes (oldestStory : Story) (stories dupes : StorySet) :
    stories.foldl
        (fun dupes story => if story.ID ≠ oldestStory.ID then dupes ++ [story] else dupes)
        dupes =
      dupes ++ stories.filter (fun story => decide (story.ID ≠ oldestStory.ID)) := by
  induction stories generalizing dupes with
  | nil => simp
  | cons x rest ih =>
    simp only [List.foldl_cons, ih, List.filter_cons]
    by_cases h : x.ID = oldestStory.ID <;> simp [h]

theorem dedupeStep_eq (acc : StorySet × StorySet) (stories : StorySet) :
    dedupeStep acc stories = (acc.1 ++ [oldestOf stories], acc.2 ++ dupesOf stories) := by
  unfold dedupeStep
  split
  · rename_i only
    simp [oldestOf_cons, dupesOf]
  · simp only [foldl_dupes, dupesOf]

theorem foldl_dedupeStep (order : List (dupeEquivalence × StorySet))
    (acc : StorySet × StorySet) :
    order.foldl (fun acc entry => dedupeStep acc entry.2) acc =
      (acc.1 ++ order.map (fun e => oldestOf e.2),
        acc.2 ++ (order.map (fun e => dupesOf e.2)).flatten) := by
  induction order generalizing acc with
  | nil => simp
  | cons e rest ih =>
    rw [List.foldl_cons, ih, dedupeStep_eq]
    simp

theorem dedupeLoop_eq (order : List (dupeEquivalence × StorySet)) :
    dedupeLoop order =
      (order.map (fun e => oldestOf e.2), (order.map (fun e => dupesOf e.2)).flatten) := by
  simp [dedupeLoop, foldl_dedupeStep]

theorem filter_eq_singleton (l : StorySet) (a : Story) (hnd : l.Nodup) (ha : a ∈ l) :
    l.filter (fun s => decide (s = a)) = [a] := by
  induction l with
  | nil => simp at ha
  | cons x rest ih =>
    simp only [List.nodup_cons] at hnd
    by_cases hx : x = a
    · subst hx
      have : rest.filter (fun s => decide (s = x)) = [] := by
        rw [List.filter_eq_nil_iff]
        intro t ht c
        simp only [decide_eq_true_eq] at c
        exact hnd.1 (c ▸ ht)
      simp [List.filter_cons, this]
    · have ha' : a ∈ rest := by
        simp only [List.mem_cons] at ha
        rcases ha with ha | ha
        · exact absurd ha.symm hx
        · exact ha
      simp [List.filter_cons, hx, ih hnd.2 ha']

/-- In a non-empty bucket with pairwise distinct ids, the survivor and the
stories appended to `dupes` make up the bucket. -/
theorem oldest_dupes_perm (stories : StorySet) (hne : stories ≠ [])
    (hnd : (stories.map (fun s => s.ID)).Nodup) :
    List.Perm (oldestOf stories :: dupesOf stories) stories := by
  have hmem := oldestOf_mem stories hne
  have hfilter : stories.filter (fun s => decide (s.ID = (oldestOf stories).ID)) =
      [oldestOf stories] := by
    have hinj := List.inj_on_of_nodup_map hnd
    have h1 : stories.filter (fun s => decide (s.ID = (oldestOf stories).ID)) =
        stories.filter (fun s => decide (s = oldestOf stories)) := by
      apply List.filter_congr
      intro s hs
      by_cases c : s = oldestOf stories
      · simp [c]
      · have : ¬ s.ID = (oldestOf stories).ID := fun c' => c (hinj hs hmem c')
        simp [c, this]
    rw [h1]
    exact filter_eq_singleton stories _ (List.Nodup.of_map _ hnd) hmem
  have hperm := List.filter_append_perm (fun s => decide (s.ID = (oldestOf stories).ID)) stories
  rw [hfilter] at hperm
  have hneg : stories.filter (fun x => !decide (x.ID = (oldestOf stories).ID)) =
      dupesOf stories := by
    unfold dupesOf
    apply List.filter_congr
    intro s _
    simp
  rw [hneg] at hperm
  exact hperm

theorem loop_perm (order : List (dupeEquivalence × StorySet))
    (h : ∀ e ∈ order, e.2 ≠ [] ∧ (e.2.map (fun s => s.ID)).Nodup) :
    List.Perm
      (order.map (fun e => oldestOf e.2) ++ (order.map (fun e => dupesOf e.2)).flatten)
      (order.map Prod.snd).flatten := by
  induction order with
  | nil => simp
  | cons e rest ih =>
    have he := h e (by simp)
    have hrest := ih (fun e' he' => h e' (by simp [he']))
    simp only [List.map_cons, List.flatten_cons, List.cons_append]
    have h1 : List.Perm
        (oldestOf e.2 :: (rest.map (fun e => oldestOf e.2) ++
          (dupesOf e.2 ++ (rest.map (fun e => dupesOf e.2)).flatten)))
        ((oldestOf e.2 :: dupesOf e.2) ++ (rest.map (fun e => oldestOf e.2) ++
          (rest.map (fun e => dupesOf e.2)).flatten)) := by
      simp only [List.cons_append]
      refine List.Perm.cons _ ?_
      rw [← List.append_assoc, ← List.append_assoc]
      exact List.Perm.append_right _ List.perm_append_comm
    exact h1.trans (List.Perm.append (oldest_dupes_perm e.2 he.1 he.2) hrest)

/-- Every entry visited by the second loop is a bucket of the map: it is not
empty and it is the stories of the input with the entry's key. -/
theorem order_entry {set : StorySet} {order : List (dupeEquivalence × StorySet)}
    (hperm : List.Perm order (byEquivalence set)) (e : dupeEquivalence × StorySet)
    (he : e ∈ order) :
    e.2 ≠ [] ∧ e.2 = set.filter (fun s => decide (equivalenceOf s = e.1)) := by
  have hm := MapOf.byEquivalence set
  have he' := hperm.mem_iff.mp he
  exact ⟨hm.nonempty e he', hm.bucket e he'⟩

/-! ## Properties of Dedupe -/

/-- C1: for a collection with pairwise distinct ids, every result of `Dedupe`
partitions the collection: canonical followed by discarded is a permutation of
the input, no story is in both outputs, and the empty collection gives two
empty collections. -/
theorem dedupe_partitions (S : StorySet) (hids : (S.map (fun s => s.ID)).Nodup)
    (out : StorySet × StorySet) (hrun : DedupeRun S out) :
    List.Perm (out.1 ++ out.2) S ∧ (∀ s, s ∈ out.1 → s ∉ out.2) ∧
      (S = [] → out = ([], [])) := by
  obtain ⟨order, hperm, rfl⟩ := hrun
  have hpart : List.Perm ((dedupeLoop order).1 ++ (dedupeLoop order).2) S := by
    rw [dedupeLoop_eq]
    refine (loop_perm order ?_).trans
      (((hperm.map Prod.snd).flatten).trans (byEquivalence_flatten S))
    intro e he
    obtain ⟨hne, hb⟩ := order_entry hperm e he
    refine ⟨hne, ?_⟩
    rw [hb]
    exact List.Nodup.sublist ((List.filter_sublist S).map _) hids
  refine ⟨hpart, ?_, ?_⟩
  · have hnd : ((dedupeLoop order).1 ++ (dedupeLoop order).2).Nodup :=
      hpart.nodup_iff.mpr (List.Nodup.of_map _ hids)
    intro s h1 h2
    exact (List.nodup_append.mp hnd).2.2 h1 h2
  · intro hS
    subst hS
    have : order = [] := by simpa [byEquivalence] using hperm
    subst this
    rfl

/-- Witness of C1 on three stories, two of which are duplicates. -/
theorem dedupe_partitions_witness :
    (sampleDupes.map (fun s => s.ID)).Nodup ∧
      List.Perm ((Dedupe sampleDupes).1 ++ (Dedupe sampleDupes).2) sampleDupes ∧
      (∀ s, s ∈ (Dedupe sampleDupes).1 → s ∉ (Dedupe sampleDupes).2) ∧
      (sampleDupes = [] → Dedupe sampleDupes = ([], [])) :=
  ⟨by decide,
    dedupe_partitions sampleDupes (by decide) (Dedupe sampleDupes)
      ⟨byEquivalence sampleDupes, List.Perm.refl _, rfl⟩⟩

theorem oldestOf_key {set : StorySet} {order : List (dupeEquivalence × StorySet)}
    (hperm : List.Perm order (byEquivalence set)) (e : dupeEquivalence × StorySet)
    (he : e ∈ order) : oldestOf e.2 ∈ set ∧ equivalenceOf (oldestOf e.2) = e.1 := by
  obtain ⟨hne, hb⟩ := order_entry hperm e he
  have hmem : oldestOf e.2 ∈ set.filter (fun s => decide (equivalenceOf s = e.1)) :=
    hb ▸ oldestOf_mem e.2 hne
  rw [List.mem_filter] at hmem
  exact ⟨hmem.1, by simpa using hmem.2⟩

theorem order_nodupKeys {set : StorySet} {order : List (dupeEquivalence × StorySet)}
    (hperm : List.Perm order (byEquivalence set)) : (order.map Prod.fst).Nodup :=
  (hperm.map Prod.fst).nodup_iff.mpr (MapOf.byEquivalence set).nodupKeys

theorem filter_survivors (order : List (dupeEquivalence × StorySet))
    (hnd : (order.map Prod.fst).Nodup)
    (hkey : ∀ e ∈ order, equivalenceOf (oldestOf e.2) = e.1)
    (e : dupeEquivalence × StorySet) (he : e ∈ order) :
    (order.map (fun e => oldestOf e.2)).filter (fun t => decide (equivalenceOf t = e.1)) =
      [oldestOf e.2] := by
  induction order with
  | nil => simp at he
  | cons x rest ih =>
    simp only [List.map_cons, List.nodup_cons] at hnd
    have hx := hkey x (by simp)
    have hrest : ∀ e' ∈ rest, equivalenceOf (oldestOf e'.2) = e'.1 :=
      fun e' he' => hkey e' (by simp [he'])
    simp only [List.mem_cons] at he
    rcases he with he | he
    · subst he
      have hnil : (rest.map (fun e => oldestOf e.2)).filter
          (fun t => decide (equivalenceOf t = e.1)) = [] := by
        rw [List.filter_eq_nil_iff]
        intro t ht c
        simp only [decide_eq_true_eq] at c
        obtain ⟨e', he', rfl⟩ := List.mem_map.mp ht
        rw [hrest e' he'] at c
        exact hnd.1 (c ▸ List.mem_map_of_mem Prod.fst he')
      simp [List.filter_cons, hx, hnil]
    · have hne : ¬ equivalenceOf (oldestOf x.2) = e.1 := by
        rw [hx]
        intro c
        exact hnd.1 (c ▸ List.mem_map_of_mem Prod.fst he)
      simp only [List.map_cons, List.filter_cons, hne, decide_False, Bool.false_eq_true,
        if_false]
      exact ih hnd.2 hrest he

/-- C2: for a collection with pairwise distinct positive ids, the canonical
output of every result of `Dedupe` holds, for each key occurring in the input,
exactly one story with that key, the one whose id is smaller than the id of
every other input story with that key; every discarded story has the key of a
canonical story with a strictly smaller id. -/
theorem dedupe_keeps_minimum (S : StorySet) (hids : (S.map (fun s => s.ID)).Nodup)
    (hpos : ∀ s ∈ S, 0 < s.ID) (out : StorySet × StorySet) (hrun : DedupeRun S out) :
    (∀ s ∈ S, ∃ c,
        out.1.filter (fun t => decide (equivalenceOf t = equivalenceOf s)) = [c] ∧
        c ∈ S ∧ equivalenceOf c = equivalenceOf s ∧
        ∀ t ∈ S, equivalenceOf t = equivalenceOf s → t = c ∨ c.ID < t.ID) ∧
      (∀ d ∈ out.2, ∃ c ∈ out.1, equivalenceOf c = equivalenceOf d ∧ c.ID < d.ID) := by
  obtain ⟨order, hperm, rfl⟩ := hrun
  rw [dedupeLoop_eq]
  have hinj := List.inj_on_of_nodup_map hids
  have hbucketPos : ∀ e ∈ order, ∀ t ∈ e.2, 0 < t.ID := by
    intro e he t ht
    rw [(order_entry hperm e he).2] at ht
    exact hpos t (List.mem_filter.mp ht).1
  constructor
  · intro s hs
    have hk := (MapOf.byEquivalence S).complete s hs
    obtain ⟨e, he, hek⟩ := List.mem_map.mp hk
    have he' : e ∈ order := hperm.mem_iff.mpr he
    obtain ⟨hcS, hck⟩ := oldestOf_key hperm e he'
    refine ⟨oldestOf e.2, ?_, hcS, hck.trans hek, ?_⟩
    · rw [← hek]
      exact filter_survivors order (order_nodupKeys hperm)
        (fun e' h' => (oldestOf_key hperm e' h').2) e he'
    · intro t ht hkt
      have htb : t ∈ e.2 := by
        rw [(order_entry hperm e he').2, List.mem_filter]
        exact ⟨ht, by simp [hkt, hek]⟩
      have hle := oldestOf_le e.2 (hbucketPos e he') t htb
      by_cases c : t.ID = (oldestOf e.2).ID
      · exact Or.inl (hinj ht hcS c)
      · exact Or.inr (by omega)
  · intro d hd
    simp only [List.mem_flatten, List.mem_map] at hd
    obtain ⟨l, ⟨e, he, rfl⟩, hdl⟩ := hd
    unfold dupesOf at hdl
    rw [List.mem_filter] at hdl
    obtain ⟨hdb, hne⟩ := hdl
    simp only [ne_eq, decide_not, Bool.not_eq_true', decide_eq_false_iff_not] at hne
    refine ⟨oldestOf e.2, List.mem_map.mpr ⟨e, he, rfl⟩, ?_, ?_⟩
    · rw [(oldestOf_key hperm e he).2]
      rw [(order_entry hperm e he).2, List.mem_filter] at hdb
      exact (of_decide_eq_true hdb.2).symm
    · have hle := oldestOf_le e.2 (hbucketPos e he) d hdb
      omega

/-- Witness of C2: two stories with the same key and ids 5 and 3 give the
canonical output `[id 3]` and the discarded output `[id 5]`. -/
theorem dedupe_keeps_minimum_witness :
    Dedupe twoDupes = ([mkStory 3 "feature" "unscheduled"], [mkStory 5 "bug" "started"]) ∧
      ((∀ s ∈ twoDupes, ∃ c,
          (Dedupe twoDupes).1.filter
            (fun t => decide (equivalenceOf t = equivalenceOf s)) = [c] ∧
          c ∈ twoDupes ∧ equivalenceOf c = equivalenceOf s ∧
          ∀ t ∈ twoDupes, equivalenceOf t = equivalenceOf s → t = c ∨ c.ID < t.ID) ∧
        (∀ d ∈ (Dedupe twoDupes).2, ∃ c ∈ (Dedupe twoDupes).1,
          equivalenceOf c = equivalenceOf d ∧ c.ID < d.ID)) :=
  ⟨by decide,
    dedupe_keeps_minimum twoDupes (by decide) (by decide) (Dedupe twoDupes)
      ⟨byEquivalence twoDupes, List.Perm.refl _, rfl⟩⟩

theorem buildFrom_of_nodup (l : StorySet) (m : List (dupeEquivalence × StorySet))
    (h : (m.map Prod.fst ++ l.map equivalenceOf).Nodup) :
    buildFrom m l = m ++ l.map (fun s => (equivalenceOf s, [s])) := by
  induction l generalizing m with
  | nil => simp [buildFrom]
  | cons x rest ih =>
    have hx : equivalenceOf x ∉ m.map Prod.fst := by
      intro c
      exact (List.nodup_append.mp h).2.2 c (by simp)
    have hstep : buildFrom m (x :: rest) = buildFrom (m ++ [(equivalenceOf x, [x])]) rest := by
      simp only [buildFrom, List.foldl_cons]
      rw [mapAppend_of_not_mem m _ x hx]
    rw [hstep, ih]
    · simp
    · simpa using h

theorem byEquivalence_of_nodup (l : StorySet) (h : (l.map equivalenceOf).Nodup) :
    byEquivalence l = l.map (fun s => (equivalenceOf s, [s])) := by
  rw [byEquivalence_eq, buildFrom_of_nodup l [] (by simpa using h)]
  simp

/-- The canonical output of a run of `Dedupe` has pairwise distinct keys. -/
theorem canonical_nodupKeys {set : StorySet} {order : List (dupeEquivalence × StorySet)}
    (hperm : List.Perm order (byEquivalence set)) :
    ((dedupeLoop order).1.map equivalenceOf).Nodup := by
  have hmap : (dedupeLoop order).1.map equivalenceOf = order.map Prod.fst := by
    rw [dedupeLoop_eq]
    simp only [List.map_map]
    apply List.map_congr_left
    intro e he
    exact (oldestOf_key hperm e he).2
  rw [hmap]
  exact order_nodupKeys hperm

/-- C3: `Dedupe` is idempotent on its canonical output: every result of
`Dedupe` on the canonical output of a result of `Dedupe` has an empty discarded
output and a canonical output that is a permutation of its input. -/
theorem dedupe_idempotent (S : StorySet) (out : StorySet × StorySet) (hrun : DedupeRun S out)
    (out' : StorySet × StorySet) (hrun' : DedupeRun out.1 out') :
    out'.2 = [] ∧ List.Perm out'.1 out.1 := by
  obtain ⟨order, hperm, rfl⟩ := hrun
  obtain ⟨order', hperm', rfl⟩ := hrun'
  rw [byEquivalence_of_nodup _ (canonical_nodupKeys hperm)] at hperm'
  rw [dedupeLoop_eq order']
  constructor
  · simp only [List.flatten_eq_nil_iff, List.mem_map]
    rintro l ⟨e, he, rfl⟩
    obtain ⟨s, _, rfl⟩ := List.mem_map.mp (hperm'.mem_iff.mp he)
    simp [dupesOf, oldestOf_cons]
  · have h := hperm'.map (fun e => oldestOf e.2)
    simp only [List.map_map] at h
    have hid : (dedupeLoop order).1.map
        ((fun e : dupeEquivalence × StorySet => oldestOf e.2) ∘
          fun s => (equivalenceOf s, [s])) = (dedupeLoop order).1 := by
      conv_rhs => rw [← List.map_id (dedupeLoop order).1]
      apply List.map_congr_left
      intro s _
      simp [oldestOf_cons]
    rw [hid] at h
    exact h

/-- Witness of C3 on three stories, two of which are duplicates. -/
theorem dedupe_idempotent_witness :
    (Dedupe (Dedupe sampleDupes).1).2 = [] ∧
      List.Perm (Dedupe (Dedupe sampleDupes).1).1 (Dedupe sampleDupes).1 :=
  dedupe_idempotent sampleDupes (Dedupe sampleDupes)
    ⟨byEquivalence sampleDupes, List.Perm.refl _, rfl⟩ (Dedupe (Dedupe sampleDupes).1)
    ⟨byEquivalence (Dedupe sampleDupes).1, List.Perm.refl _, rfl⟩

theorem labelNames_eq (story : Story) : labelNames story = story.Labels.map (fun l => l.Name) := by
  unfold labelNames
  generalize story.Labels = ls
  have h : ∀ acc : List String,
      ls.foldl (fun acc label => acc ++ [label.Name]) acc = acc ++ ls.map (fun l => l.Name) := by
    induction ls with
    | nil => simp
    | cons x rest ih =>
      intro acc
      simp [ih]
  simpa using h []

theorem sortStrings_eq (names : List String) :
    sortStrings names = names.insertionSort (fun a b => a ≤ b) := by
  unfold sortStrings
  congr 1
  funext a b
  exact (propext String.le_iff_toList_le).symm

theorem sortStrings_perm (names : List String) : List.Perm (sortStrings names) names := by
  rw [sortStrings_eq]
  exact List.perm_insertionSort _ names

theorem sortStrings_sorted (names : List String) :
    List.Sorted (fun a b : String => a ≤ b) (sortStrings names) := by
  rw [sortStrings_eq]
  exact List.sorted_insertionSort _ names

theorem sortStrings_congr {xs ys : List String} (h : List.Perm xs ys) :
    sortStrings xs = sortStrings ys :=
  List.eq_of_perm_of_sorted
    (((sortStrings_perm xs).trans h).trans (sortStrings_perm ys).symm)
    (sortStrings_sorted xs) (sortStrings_sorted ys)

/-- C4: the key used by `Dedupe` is the triple of the name, the description
and the sorted label names joined by a comma; it is the same for two stories
with equal name, equal description and label names that are permutations of
each other, whatever their other fields, and it differs for two stories with
different names or different descriptions. -/
theorem equivalenceOf_spec (a b : Story) :
    equivalenceOf a =
        ⟨a.Name, a.Description,
          String.intercalate "," ((a.Labels.map (fun l => l.Name)).insertionSort
            (fun x y => x ≤ y))⟩ ∧
      (a.Name = b.Name → a.Description = b.Description →
        List.Perm (a.Labels.map (fun l => l.Name)) (b.Labels.map (fun l => l.Name)) →
        equivalenceOf a = equivalenceOf b) ∧
      (a.Name ≠ b.Name ∨ a.Description ≠ b.Description → equivalenceOf a ≠ equivalenceOf b) := by
  refine ⟨?_, ?_, ?_⟩
  · simp [equivalenceOf, labelNames_eq, sortStrings_eq]
  · intro hn hd hl
    simp only [equivalenceOf, labelNames_eq, hn, hd, sortStrings_congr hl]
  · intro h c
    simp only [equivalenceOf, dupeEquivalence.mk.injEq] at c
    rcases h with h | h
    · exact h c.1
    · exact h c.2.1

/-- Witness of C4: labels in another order give the same key, another name
gives another key. -/
theorem equivalenceOf_spec_witness :
    equivalenceOf permutedA = equivalenceOf permutedB ∧
      equivalenceOf permutedA ≠ equivalenceOf { permutedB with Name := "m" } :=
  ⟨(equivalenceOf_spec permutedA permutedB).2.1 rfl rfl (List.Perm.swap _ _ _),
    (equivalenceOf_spec permutedA { permutedB with Name := "m" }).2.2 (Or.inl (by decide))⟩

/-! ## Lemmas on IssueLabels -/

theorem foldl_typeFlags (set : StorySet) (flags : Bool × Bool) :
    set.foldl
        (fun flags story =>
          if story.StoryType = "feature" then (flags.1, true)
          else if story.StoryType = "bug" then (true, flags.2)
          else flags)
        flags =
      (flags.1 || decide (∃ s ∈ set, s.StoryType = "bug"),
        flags.2 || decide (∃ s ∈ set, s.StoryType = "feature")) := by
  induction set generalizing flags with
  | nil => simp
  | cons x rest ih =>
    rw [List.foldl_cons, ih]
    by_cases hf : x.StoryType = "feature"
    · simp [hf]
    · by_cases hb : x.StoryType = "bug"
      · simp [hb]
      · simp [hf, hb]

theorem typeLabels_eq (set : StorySet) : typeLabels set = stage1Labels set := by
  unfold typeLabels stage1Labels typeFlags
  rw [foldl_typeFlags]
  simp only [Bool.false_or, decide_eq_true_eq, IssueLabelEnhancement, IssueLabelBug]

theorem allAccepted_iff (set : StorySet) :
    AllAccepted set = true ↔ ∀ s ∈ set, s.State = "accepted" := by
  induction set with
  | nil => simp [AllAccepted]
  | cons x rest ih =>
    by_cases h : x.State = "accepted"
    · simp [AllAccepted, h, ih]
    · simp [AllAccepted, h]

theorem scan_idle (labels : List String) (au : Bool) (x : Story) (rest : StorySet)
    (h : idleState x.State) :
    scanStates labels au (x :: rest) = scanStates labels au rest := by
  rcases h with h | h <;> simp [scanStates, h]

theorem scan_scheduled (labels : List String) (au : Bool) (x : Story) (rest : StorySet)
    (h : scheduledState x.State) :
    scanStates labels au (x :: rest) = scanStates labels false rest := by
  rcases h with h | h <;> simp [scanStates, h]

theorem scan_inFlight (labels : List String) (au : Bool) (x : Story) (rest : StorySet)
    (h : inFlightState x.State) :
    scanStates labels au (x :: rest) = .ok (labels ++ [IssueLabelInFlight]) := by
  rcases h with h | h | h | h <;> simp [scanStates, h]

theorem scan_unknown (labels : List String) (au : Bool) (x : Story) (rest : StorySet)
    (h : ¬ knownState x.State) :
    scanStates labels au (x :: rest) = .error x.State := by
  simp only [knownState, idleState, inFlightState, scheduledState, not_or] at h
  obtain ⟨⟨h1, h2⟩, ⟨h3, h4, h5, h6⟩, h7, h8⟩ := h
  simp [scanStates, h1, h2, h3, h4, h5, h6, h7, h8]

theorem idle_not_inFlight {st : String} (h : idleState st) : ¬ inFlightState st := by
  rcases h with h | h <;> subst h <;> decide

theorem idle_not_scheduled {st : String} (h : idleState st) : ¬ scheduledState st := by
  rcases h with h | h <;> subst h <;> decide

theorem scheduled_not_inFlight {st : String} (h : scheduledState st) : ¬ inFlightState st := by
  rcases h with h | h <;> subst h <;> decide

/-- The result of the second loop when every state is known. -/
theorem scan_known (labels : List String) (au : Bool) (set : StorySet)
    (h : ∀ s ∈ set, knownState s.State) :
    scanStates labels au set =
      .ok (labels ++
        [if ∃ s ∈ set, inFlightState s.State then "in-flight"
          else if au = true ∧ ¬ ∃ s ∈ set, scheduledState s.State then "unscheduled"
          else "scheduled"]) := by
  induction set generalizing au with
  | nil => cases au <;> simp [scanStates, IssueLabelUnscheduled, IssueLabelScheduled]
  | cons x rest ih =>
    have hrest : ∀ s ∈ rest, knownState s.State := fun s hs => h s (by simp [hs])
    rcases h x (by simp) with hx | hx | hx
    · rw [scan_idle _ _ _ _ hx, ih _ hrest]
      simp [idle_not_inFlight hx, idle_not_scheduled hx]
    · rw [scan_inFlight _ _ _ _ hx]
      simp [hx, IssueLabelInFlight]
    · rw [scan_scheduled _ _ _ _ hx, ih _ hrest]
      simp [scheduled_not_inFlight hx, hx]

/-- The result of `IssueLabels` when every state is known. -/
theorem issueLabels_known (set : StorySet) (h : ∀ s ∈ set, knownState s.State) :
    IssueLabels set = .ok (stage1Labels set ++ stage2Labels set) := by
  unfold IssueLabels stage2Labels
  simp only [typeLabels_eq]
  by_cases hacc : ∀ s ∈ set, s.State = "accepted"
  · rw [if_pos ((allAccepted_iff set).mpr hacc), if_pos hacc, List.append_nil]
  · have hacc' : ¬ AllAccepted set = true := fun c => hacc ((allAccepted_iff set).mp c)
    simp only [hacc', hacc, if_false, Bool.false_eq_true]
    rw [scan_known _ _ _ h]
    simp only [true_and]
    by_cases h1 : ∃ s ∈ set, inFlightState s.State
    · simp only [h1, if_true]
    · simp only [h1, if_false]
      by_cases h2 : ∃ s ∈ set, scheduledState s.State
      · simp only [h2, not_true_eq_false, if_false, if_true]
      · simp only [h2, not_false_eq_true, if_false, if_true]

/-- The shape of every list returned by the second loop. -/
theorem scan_ok_shape (labels : List String) (au : Bool) (set : StorySet) (ls : List String)
    (h : scanStates labels au set = .ok ls) :
    ls = labels ++ ["in-flight"] ∨ ls = labels ++ ["scheduled"] ∨
      ls = labels ++ ["unscheduled"] := by
  induction set generalizing au with
  | nil =>
    cases au <;>
      simp [scanStates, IssueLabelUnscheduled, IssueLabelScheduled] at h <;> simp [← h]
  | cons x rest ih =>
    by_cases hk : knownState x.State
    · rcases hk with hx | hx | hx
      · rw [scan_idle _ _ _ _ hx] at h
        exact ih _ h
      · rw [scan_inFlight _ _ _ _ hx] at h
        simp only [Except.ok.injEq, IssueLabelInFlight] at h
        exact Or.inl h.symm
      · rw [scan_scheduled _ _ _ _ hx] at h
        exact ih _ h
    · rw [scan_unknown _ _ _ _ hk] at h
      cases h

/-- The shape of every list returned by `IssueLabels`. -/
theorem issueLabels_ok_shape (set : StorySet) (ls : List String)
    (h : IssueLabels set = .ok ls) :
    ls = stage1Labels set ∨ ls = stage1Labels set ++ ["in-flight"] ∨
      ls = stage1Labels set ++ ["scheduled"] ∨ ls = stage1Labels set ++ ["unscheduled"] := by
  unfold IssueLabels at h
  simp only [typeLabels_eq] at h
  by_cases hacc : AllAccepted set = true
  · simp only [hacc, if_true, Except.ok.injEq] at h
    exact Or.inl h.symm
  · simp only [hacc, if_false, Bool.false_eq_true] at h
    exact Or.inr (scan_ok_shape _ _ _ _ h)

theorem mem_stage1Labels (set : StorySet) (x : String) :
    x ∈ stage1Labels set ↔
      (x = "enhancement" ∧ ∃ s ∈ set, s.StoryType = "feature") ∨
        (x = "bug" ∧ (∃ s ∈ set, s.StoryType = "bug") ∧ ¬ ∃ s ∈ set, s.StoryType = "feature") := by
  unfold stage1Labels
  by_cases hf : ∃ s ∈ set, s.StoryType = "feature"
  · simp only [hf, if_true, List.mem_singleton, and_true, not_true_eq_false, and_false, or_false]
  · by_cases hb : ∃ s ∈ set, s.StoryType = "bug"
    · simp only [hf, hb, if_false, if_true, List.mem_singleton, and_false, false_or,
        not_false_eq_true, and_true]
    · simp only [hf, hb, if_false, List.not_mem_nil, and_false, false_and, or_false]

/-! ## Properties of IssueLabels -/

/-- C5: when every story is accepted (also for the empty collection),
`IssueLabels` returns the type label alone: `enhancement` if some story is a
feature, else `bug` if some story is a bug, else nothing. -/
theorem issueLabels_allAccepted (S : StorySet) (h : ∀ s ∈ S, s.State = "accepted") :
    IssueLabels S =
      .ok (if ∃ s ∈ S, s.StoryType = "feature" then ["enhancement"]
        else if ∃ s ∈ S, s.StoryType = "bug" then ["bug"]
        else []) := by
  unfold IssueLabels
  rw [if_pos ((allAccepted_iff S).mpr h), typeLabels_eq]
  rfl

/-- Witness of C5: all stories accepted, one a feature, gives `enhancement`
only. -/
theorem issueLabels_allAccepted_witness :
    (∀ s ∈ acceptedGroup, s.State = "accepted") ∧
      IssueLabels acceptedGroup = .ok ["enhancement"] :=
  ⟨by decide, (issueLabels_allAccepted acceptedGroup (by decide)).trans (by decide)⟩

/-- C6: when every state is one of the eight known states, `IssueLabels`
returns a list that contains `in-flight` exactly when some story is started,
finished, delivered or rejected; the list is then the type label followed by
`in-flight`, with neither `scheduled` nor `unscheduled`. -/
theorem issueLabels_inFlight (S : StorySet) (h : ∀ s ∈ S, knownState s.State) :
    ∃ ls, IssueLabels S = .ok ls ∧
      ("in-flight" ∈ ls ↔ ∃ s ∈ S, inFlightState s.State) ∧
      ((∃ s ∈ S, inFlightState s.State) →
        ls = stage1Labels S ++ ["in-flight"] ∧ "scheduled" ∉ ls ∧ "unscheduled" ∉ ls) := by
  refine ⟨_, issueLabels_known S h, ?_, ?_⟩
  · have h1 : "in-flight" ∉ stage1Labels S := by
      rw [mem_stage1Labels]
      simp
    simp only [List.mem_append, h1, false_or]
    unfold stage2Labels
    by_cases hin : ∃ s ∈ S, inFlightState s.State
    · have hacc : ¬ ∀ s ∈ S, s.State = "accepted" := by
        obtain ⟨s, hs, hst⟩ := hin
        intro c
        rw [c s hs] at hst
        revert hst
        decide
      simp [hacc, hin]
    · by_cases hacc : ∀ s ∈ S, s.State = "accepted"
      · rw [if_pos hacc]
        simp [hin]
      · rw [if_neg hacc, if_neg hin]
        split <;> simp [hin]
  · intro hin
    have hacc : ¬ ∀ s ∈ S, s.State = "accepted" := by
      obtain ⟨s, hs, hst⟩ := hin
      intro c
      rw [c s hs] at hst
      revert hst
      decide
    have h2 : stage2Labels S = ["in-flight"] := by
      unfold stage2Labels
      rw [if_neg hacc, if_pos hin]
    rw [h2]
    refine ⟨rfl, ?_, ?_⟩ <;>
      · simp only [List.mem_append, mem_stage1Labels, List.mem_singleton]
        simp

/-- Witness of C6: one started bug and one unscheduled story give
`bug`, `in-flight`. -/
theorem issueLabels_inFlight_witness :
    (∀ s ∈ startedGroup, knownState s.State) ∧
      IssueLabels startedGroup = .ok ["bug", "in-flight"] ∧
      ∃ ls, IssueLabels startedGroup = .ok ls ∧
        ("in-flight" ∈ ls ↔ ∃ s ∈ startedGroup, inFlightState s.State) ∧
        ((∃ s ∈ startedGroup, inFlightState s.State) →
          ls = stage1Labels startedGroup ++ ["in-flight"] ∧
            "scheduled" ∉ ls ∧ "unscheduled" ∉ ls) :=
  ⟨by decide, by decide, issueLabels_inFlight startedGroup (by decide)⟩

/-- C7: for a collection that is not all accepted and whose states are all
among accepted, unscheduled, unstarted and planned, `IssueLabels` returns the
type label followed by `unscheduled` if every story that is not accepted is
unscheduled, and followed by `scheduled` otherwise. -/
theorem issueLabels_scheduled (S : StorySet) (hna : ¬ ∀ s ∈ S, s.State = "accepted")
    (h : ∀ s ∈ S, idleState s.State ∨ scheduledState s.State) :
    IssueLabels S =
      .ok (stage1Labels S ++
        [if ∀ s ∈ S, s.State ≠ "accepted" → s.State = "unscheduled" then "unscheduled"
          else "scheduled"]) := by
  have hknown : ∀ s ∈ S, knownState s.State := by
    intro s hs
    rcases h s hs with c | c
    · exact Or.inl c
    · exact Or.inr (Or.inr c)
  have hin : ¬ ∃ s ∈ S, inFlightState s.State := by
    rintro ⟨s, hs, c⟩
    rcases h s hs with c' | c'
    · exact idle_not_inFlight c' c
    · exact scheduled_not_inFlight c' c
  rw [issueLabels_known S hknown]
  unfold stage2Labels
  rw [if_neg hna, if_neg hin]
  by_cases hs : ∃ s ∈ S, scheduledState s.State
  · have hall : ¬ ∀ s ∈ S, s.State ≠ "accepted" → s.State = "unscheduled" := by
      intro c
      obtain ⟨s, hs1, hs2⟩ := hs
      have hidle : idleState s.State := by
        by_cases ha : s.State = "accepted"
        · exact Or.inl ha
        · exact Or.inr (c s hs1 ha)
      exact idle_not_scheduled hidle hs2
    rw [if_pos hs, if_neg hall]
  · have hall : ∀ s ∈ S, s.State ≠ "accepted" → s.State = "unscheduled" := by
      intro s hs1 ha
      rcases h s hs1 with c | c
      · rcases c with c | c
        · exact absurd c ha
        · exact c
      · exact absurd ⟨s, hs1, c⟩ hs
    rw [if_neg hs, if_pos hall]

/-- Witness of C7: two unstarted stories without feature or bug give
`scheduled`; three unscheduled chores give `unscheduled`; an accepted and an
unscheduled story give `unscheduled`. -/
theorem issueLabels_scheduled_witness :
    IssueLabels unstartedGroup = .ok ["scheduled"] ∧
      IssueLabels unscheduledGroup = .ok ["unscheduled"] ∧
      IssueLabels mixedGroup = .ok ["unscheduled"] :=
  ⟨(issueLabels_scheduled unstartedGroup (by decide) (by decide)).trans (by decide),
    (issueLabels_scheduled unscheduledGroup (by decide) (by decide)).trans (by decide),
    (issueLabels_scheduled mixedGroup (by decide) (by decide)).trans (by decide)⟩

/-- C8: the type label of `IssueLabels` depends on the story types only and
a feature takes priority over a bug: a returned list contains `enhancement`
exactly when some story is a feature, contains `bug` exactly when some story is
a bug and none is a feature, never contains both, and the type label, when
present, is the first element. -/
theorem issueLabels_typeLabel (S : StorySet) (ls : List String)
    (h : IssueLabels S = .ok ls) :
    ("enhancement" ∈ ls ↔ ∃ s ∈ S, s.StoryType = "feature") ∧
      ("bug" ∈ ls ↔ (∃ s ∈ S, s.StoryType = "bug") ∧ ¬ ∃ s ∈ S, s.StoryType = "feature") ∧
      ¬ ("enhancement" ∈ ls ∧ "bug" ∈ ls) ∧
      ("enhancement" ∈ ls → ls.head? = some "enhancement") ∧
      ("bug" ∈ ls → ls.head? = some "bug") := by
  have hshape : ∃ status, ls = stage1Labels S ++ status ∧
      "enhancement" ∉ status ∧ "bug" ∉ status := by
    rcases issueLabels_ok_shape S ls h with c | c | c | c
    · exact ⟨[], by simpa using c, by simp, by simp⟩
    · exact ⟨_, c, by decide, by decide⟩
    · exact ⟨_, c, by decide, by decide⟩
    · exact ⟨_, c, by decide, by decide⟩
  obtain ⟨status, rfl, he, hb⟩ := hshape
  have h1 : "enhancement" ∈ stage1Labels S ++ status ↔ ∃ s ∈ S, s.StoryType = "feature" := by
    simp only [List.mem_append, he, or_false, mem_stage1Labels]
    simp
  have h2 : "bug" ∈ stage1Labels S ++ status ↔
      (∃ s ∈ S, s.StoryType = "bug") ∧ ¬ ∃ s ∈ S, s.StoryType = "feature" := by
    simp only [List.mem_append, hb, or_false, mem_stage1Labels]
    simp
  refine ⟨h1, h2, ?_, ?_, ?_⟩
  · rw [h1, h2]
    rintro ⟨hf, _, hnf⟩
    exact hnf hf
  · rw [h1]
    intro hf
    simp [stage1Labels, hf]
  · rw [h2]
    rintro ⟨hbug, hf⟩
    simp only [stage1Labels, if_neg hf, if_pos hbug]
    rfl

/-- Witness of C8 on a started bug with an unscheduled story. -/
theorem issueLabels_typeLabel_witness :
    IssueLabels startedGroup = .ok ["bug", "in-flight"] ∧
      ("bug" ∈ ["bug", "in-flight"] ↔
        (∃ s ∈ startedGroup, s.StoryType = "bug") ∧
          ¬ ∃ s ∈ startedGroup, s.StoryType = "feature") :=
  ⟨by decide, (issueLabels_typeLabel startedGroup ["bug", "in-flight"] (by decide)).2.1⟩

theorem unknownReached_nil (st : String) : ¬ UnknownReached [] st := by
  rintro ⟨pre, s, post, h, _⟩
  cases pre <;> simp at h

theorem unknownReached_cons (x : Story) (rest : StorySet) (st : String) :
    UnknownReached (x :: rest) st ↔
      (¬ knownState x.State ∧ st = x.State) ∨
        (knownState x.State ∧ ¬ inFlightState x.State ∧ UnknownReached rest st) := by
  constructor
  · rintro ⟨pre, s, post, h, hpre, hs, hst⟩
    cases pre with
    | nil =>
      simp only [List.nil_append, List.cons.injEq] at h
      obtain ⟨rfl, _⟩ := h
      exact Or.inl ⟨hs, hst⟩
    | cons y pre' =>
      simp only [List.cons_append, List.cons.injEq] at h
      obtain ⟨rfl, hrest⟩ := h
      have hx := hpre x (by simp)
      exact Or.inr ⟨hx.1, hx.2,
        ⟨pre', s, post, hrest, fun t ht => hpre t (by simp [ht]), hs, hst⟩⟩
  · rintro (⟨hx, hst⟩ | ⟨hk, hin, pre, s, post, hrest, hpre, hs, hst⟩)
    · exact ⟨[], x, rest, rfl, by simp, hx, hst⟩
    · refine ⟨x :: pre, s, post, by simp [hrest], ?_, hs, hst⟩
      intro t ht
      simp only [List.mem_cons] at ht
      rcases ht with ht | ht
      · subst ht
        exact ⟨hk, hin⟩
      · exact hpre t ht

theorem scan_error_iff (labels : List String) (au : Bool) (set : StorySet) (st : String) :
    scanStates labels au set = .error st ↔ UnknownReached set st := by
  induction set generalizing au with
  | nil =>
    have h := unknownReached_nil st
    cases au <;> simp [scanStates, h]
  | cons x rest ih =>
    rw [unknownReached_cons]
    by_cases hk : knownState x.State
    · rcases hk with hx | hx | hx
      · rw [scan_idle _ _ _ _ hx, ih]
        have hk : knownState x.State := Or.inl hx
        simp [hk, idle_not_inFlight hx]
      · rw [scan_inFlight _ _ _ _ hx]
        have hk : knownState x.State := Or.inr (Or.inl hx)
        simp [hk, hx]
      · rw [scan_scheduled _ _ _ _ hx, ih]
        have hk : knownState x.State := Or.inr (Or.inr hx)
        simp [hk, scheduled_not_inFlight hx]
    · rw [scan_unknown _ _ _ _ hk]
      simp only [Except.error.injEq, hk, not_false_eq_true, true_and, false_and, or_false]
      exact eq_comm

/-- C9: `IssueLabels` fails with the unknown-state error exactly when the scan
from left to right reaches a story with an unknown state before any story that
is started, finished, delivered or rejected, and the error carries the state of
that story; in every other case `IssueLabels` returns a list. -/
theorem issueLabels_error (S : StorySet) :
    (∀ st, IssueLabels S = .error st ↔ UnknownReached S st) ∧
      ((¬ ∃ st, UnknownReached S st) → ∃ ls, IssueLabels S = .ok ls) := by
  have hiff : ∀ st, IssueLabels S = .error st ↔ UnknownReached S st := by
    intro st
    unfold IssueLabels
    by_cases hacc : AllAccepted S = true
    · simp only [hacc, if_true]
      constructor
      · intro h
        cases h
      · rintro ⟨pre, s, post, h, _, hs, _⟩
        have hsacc : s.State = "accepted" := by
          apply (allAccepted_iff S).mp hacc
          rw [h]
          simp
        exact absurd (Or.inl (Or.inl hsacc)) hs
    · simp only [hacc, if_false, Bool.false_eq_true]
      exact scan_error_iff _ _ _ _
  refine ⟨hiff, ?_⟩
  intro hnone
  cases hres : IssueLabels S with
  | ok ls => exact ⟨ls, rfl⟩
  | error st => exact absurd ⟨st, (hiff st).mp hres⟩ hnone

/-- Witness of C9: an unknown state after an unstarted story is reported, also
when a started story follows; after a started story it is not reached. -/
theorem issueLabels_error_witness :
    IssueLabels unknownGroup = .error "blocked" ∧ UnknownReached unknownGroup "blocked" ∧
      IssueLabels unknownGroup.reverse = .ok ["bug", "in-flight"] :=
  ⟨by decide, ((issueLabels_error unknownGroup).1 "blocked").mp (by decide), by decide⟩

theorem stage1Labels_perm {S S' : StorySet} (hperm : List.Perm S' S) :
    stage1Labels S' = stage1Labels S := by
  unfold stage1Labels
  simp only [hperm.mem_iff]

theorem stage2Labels_perm {S S' : StorySet} (hperm : List.Perm S' S) :
    stage2Labels S' = stage2Labels S := by
  unfold stage2Labels
  simp only [hperm.mem_iff]

/-- C10: when every state is one of the eight known states, the result of
`IssueLabels` does not depend on the order of the stories. -/
theorem issueLabels_perm (S S' : StorySet) (h : ∀ s ∈ S, knownState s.State)
    (hperm : List.Perm S' S) : IssueLabels S' = IssueLabels S := by
  have h' : ∀ s ∈ S', knownState s.State := fun s hs => h s (hperm.mem_iff.mp hs)
  rw [issueLabels_known S h, issueLabels_known S' h', stage1Labels_perm hperm,
    stage2Labels_perm hperm]

/-- Witness of C10: a started bug and an unscheduled story, in both orders. -/
theorem issueLabels_perm_witness :
    IssueLabels startedGroup.reverse = IssueLabels startedGroup ∧
      IssueLabels startedGroup = .ok ["bug", "in-flight"] :=
  ⟨issueLabels_perm startedGroup startedGroup.reverse (by decide)
      (List.reverse_perm startedGroup), by decide⟩

/-! ## Properties of the filters and aggregate queries -/

theorem lastAcceptedFrom_of_nil (set : StorySet) (t0 : Int) (s : Story) (hs : s ∈ set)
    (hnil : s.AcceptedAt = none) :
    lastAcceptedFrom t0 set = .error "nil pointer dereference" := by
  induction set generalizing t0 with
  | nil => simp at hs
  | cons x rest ih =>
    cases hx : x.AcceptedAt with
    | none => simp [lastAcceptedFrom, hx]
    | some t =>
      have hs' : s ∈ rest := by
        simp only [List.mem_cons] at hs
        rcases hs with hs | hs
        · subst hs
          rw [hnil] at hx
          cases hx
        · exact hs
      simp only [lastAcceptedFrom, hx]
      split
      · exact ih _ hs'
      · exact ih _ hs'

theorem lastAcceptedFrom_spec (set : StorySet) (t0 : Int)
    (hall : ∀ s ∈ set, s.AcceptedAt ≠ none) :
    ∃ m, lastAcceptedFrom t0 set = .ok m ∧ t0 ≤ m ∧
      (∀ s ∈ set, ∀ t, s.AcceptedAt = some t → t ≤ m) ∧
      (m = t0 ∨ ∃ s ∈ set, s.AcceptedAt = some m) := by
  induction set generalizing t0 with
  | nil => exact ⟨t0, rfl, le_refl _, by simp, Or.inl rfl⟩
  | cons x rest ih =>
    have hrest : ∀ s ∈ rest, s.AcceptedAt ≠ none := fun s hs => hall s (by simp [hs])
    cases hx : x.AcceptedAt with
    | none => exact absurd hx (hall x (by simp))
    | some t =>
      simp only [lastAcceptedFrom, hx]
      by_cases hlt : t0 < t
      · obtain ⟨m, h1, h2, h3, h4⟩ := ih t hrest
        refine ⟨m, by simp [hlt, h1], by omega, ?_, ?_⟩
        · intro s hs u hu
          simp only [List.mem_cons] at hs
          rcases hs with hs | hs
          · subst hs
            rw [hx] at hu
            cases hu
            exact h2
          · exact h3 s hs u hu
        · right
          rcases h4 with h4 | ⟨s, hs, h4⟩
          · exact ⟨x, by simp, by rw [hx, h4]⟩
          · exact ⟨s, by simp [hs], h4⟩
      · obtain ⟨m, h1, h2, h3, h4⟩ := ih t0 hrest
        refine ⟨m, by simp [hlt, h1], h2, ?_, ?_⟩
        · intro s hs u hu
          simp only [List.mem_cons] at hs
          rcases hs with hs | hs
          · subst hs
            rw [hx] at hu
            cases hu
            omega
          · exact h3 s hs u hu
        · rcases h4 with h4 | ⟨s, hs, h4⟩
          · exact Or.inl h4
          · exact Or.inr ⟨s, by simp [hs], h4⟩

/-- C11: on the empty collection `LastAccepted` returns the time `0`, but on a
collection with one story that has no `AcceptedAt` it does not return: the
call of `After` through the nil pointer panics. -/
theorem lastAccepted_unaccepted :
    LastAccepted [] = .ok 0 ∧
      (∀ s ∈ unacceptedGroup, s.AcceptedAt = none) ∧
      LastAccepted unacceptedGroup = .error "nil pointer dereference" :=
  ⟨by decide, by decide, by decide⟩

/-- C12, as stated, fails: the only story of the collection was accepted before
the Unix epoch, and `LastAccepted` returns the time `0`, which is no
timestamp of the collection. -/
theorem lastAccepted_before_epoch :
    (∃ s ∈ beforeEpochGroup, s.AcceptedAt = some (-5)) ∧
      LastAccepted beforeEpochGroup = .ok 0 ∧
      ¬ ∃ s ∈ beforeEpochGroup, s.AcceptedAt = some 0 :=
  ⟨by decide, by decide, by decide⟩

/-- C12, amended: when every story has `AcceptedAt` set, `LastAccepted` returns a
time that is at least the time `0` and at least every timestamp of the
collection; it is the maximum timestamp of the collection, and one of them, when
some timestamp is later than the time `0`, and it is the time `0` otherwise. -/
theorem lastAccepted_max (S : StorySet) (hall : ∀ s ∈ S, s.AcceptedAt ≠ none) :
    ∃ m, LastAccepted S = .ok m ∧ 0 ≤ m ∧
      (∀ s ∈ S, ∀ t, s.AcceptedAt = some t → t ≤ m) ∧
      ((∃ s ∈ S, ∃ t, s.AcceptedAt = some t ∧ 0 < t) → ∃ s ∈ S, s.AcceptedAt = some m) ∧
      ((¬ ∃ s ∈ S, ∃ t, s.AcceptedAt = some t ∧ 0 < t) → m = 0) := by
  obtain ⟨m, h1, h2, h3, h4⟩ := lastAcceptedFrom_spec S 0 hall
  refine ⟨m, h1, h2, h3, ?_, ?_⟩
  · rintro ⟨s, hs, t, ht, hpos⟩
    have hle := h3 s hs t ht
    rcases h4 with h4 | h4
    · omega
    · exact h4
  · intro hnone
    rcases h4 with h4 | ⟨s, hs, h4⟩
    · exact h4
    · by_contra hm
      exact hnone ⟨s, hs, m, h4, by omega⟩

/-- Witness of the amended C12: the times 5, 9 and 7 give the time 9. -/
theorem lastAccepted_max_witness :
    (∀ s ∈ acceptedTimesGroup, s.AcceptedAt ≠ none) ∧
      LastAccepted acceptedTimesGroup = .ok 9 ∧
      ∃ m, LastAccepted acceptedTimesGroup = .ok m ∧ 0 ≤ m ∧
        (∀ s ∈ acceptedTimesGroup, ∀ t, s.AcceptedAt = some t → t ≤ m) ∧
        ((∃ s ∈ acceptedTimesGroup, ∃ t, s.AcceptedAt = some t ∧ 0 < t) →
          ∃ s ∈ acceptedTimesGroup, s.AcceptedAt = some m) ∧
        ((¬ ∃ s ∈ acceptedTimesGroup, ∃ t, s.AcceptedAt = some t ∧ 0 < t) → m = 0) :=
  ⟨by decide, by decide, lastAccepted_max acceptedTimesGroup (by decide)⟩

theorem hasLabelFold_eq (equalFold : String → String → Bool) (label : String)
    (labels : List Label) :
    hasLabelFold equalFold label labels = labels.any (fun lb => equalFold lb.Name label) := by
  induction labels with
  | nil => rfl
  | cons x rest ih =>
    by_cases h : equalFold x.Name label = true
    · simp [hasLabelFold, h]
    · simp [hasLabelFold, h, ih]

theorem foldl_withLabel (p : Story → Bool) (set acc : StorySet) :
    set.foldl (fun withLabel story => if p story then withLabel ++ [story] else withLabel) acc =
      acc ++ set.filter p := by
  induction set generalizing acc with
  | nil => simp
  | cons x rest ih =>
    rw [List.foldl_cons, ih]
    by_cases h : p x = true
    · simp [List.filter_cons, h]
    · simp [List.filter_cons, h]

theorem withLabel_eq (equalFold : String → String → Bool) (set : StorySet) (label : String) :
    WithLabel equalFold set label =
      set.filter (fun s => s.Labels.any (fun lb => equalFold lb.Name label)) := by
  unfold WithLabel
  rw [foldl_withLabel (fun story => hasLabelFold equalFold label story.Labels)]
  simp only [List.nil_append, hasLabelFold_eq]

/-- C13: `WithLabel` is the filter of the collection, in input order, by the
predicate that some label name of the story equals the query under case
folding: it is a sublist of the input, a matching story occurs as often as in
the input, a story that does not match does not occur, and the empty collection
gives the empty collection. A story labelled `Bug` is returned for the query
`bug` as soon as case folding equates the two strings. -/
theorem withLabel_filter (equalFold : String → String → Bool) (S : StorySet) (l : String) :
    WithLabel equalFold S l =
        S.filter (fun s => s.Labels.any (fun lb => equalFold lb.Name l)) ∧
      List.Sublist (WithLabel equalFold S l) S ∧
      (∀ s, (∃ lb ∈ s.Labels, equalFold lb.Name l = true) →
        (WithLabel equalFold S l).count s = S.count s) ∧
      (∀ s, (¬ ∃ lb ∈ s.Labels, equalFold lb.Name l = true) → s ∉ WithLabel equalFold S l) ∧
      WithLabel equalFold [] l = [] ∧
      (equalFold "Bug" "bug" = true → ∀ s ∈ S, (∃ lb ∈ s.Labels, lb.Name = "Bug") →
        s ∈ WithLabel equalFold S "bug") := by
  refine ⟨withLabel_eq equalFold S l, ?_, ?_, ?_, rfl, ?_⟩
  · rw [withLabel_eq]
    exact List.filter_sublist S
  · intro s hs
    rw [withLabel_eq, List.count_filter]
    simpa using hs
  · intro s hs hmem
    rw [withLabel_eq, List.mem_filter] at hmem
    exact hs (by simpa using hmem.2)
  · rintro hfold s hs ⟨lb, hlb, hname⟩
    rw [withLabel_eq, List.mem_filter]
    refine ⟨hs, ?_⟩
    simp only [List.any_eq_true]
    exact ⟨lb, hlb, by rw [hname]; exact hfold⟩

/-- Witness of C13: with case folding at the ASCII level, the story labelled
`Bug` is the result for the query `bug`. -/
theorem withLabel_filter_witness :
    WithLabel asciiEqualFold bugGroup "bug" = [mkLabelled 1 ["Bug"] none] ∧
      mkLabelled 1 ["Bug"] none ∈ WithLabel asciiEqualFold bugGroup "bug" :=
  ⟨by decide,
    (withLabel_filter asciiEqualFold bugGroup "bug").2.2.2.2.2 (by decide)
      (mkLabelled 1 ["Bug"] none) (by decide) ⟨⟨0, 1, "Bug"⟩, by decide, rfl⟩⟩

theorem hasPRLabel_iff (labels : List Label) :
    hasPRLabel labels = true ↔ ∃ lb ∈ labels, lb.Name = "has-pr" := by
  induction labels with
  | nil => simp [hasPRLabel]
  | cons x rest ih =>
    by_cases h : x.Name = "has-pr"
    · simp [hasPRLabel, h]
    · simp [hasPRLabel, h, ih]

/-- C14: `HasPR` is true exactly when some story carries a label named exactly
`has-pr`; it is false on the empty collection and on a collection whose only
label is `Has-PR`, for which `WithLabel` with the query `has-pr` is not empty as
soon as case folding equates the two strings. -/
theorem hasPR_iff (S : StorySet) :
    (HasPR S = true ↔ ∃ s ∈ S, ∃ lb ∈ s.Labels, lb.Name = "has-pr") ∧
      HasPR [] = false ∧
      HasPR hasPRGroup = false ∧
      (∀ equalFold : String → String → Bool, equalFold "Has-PR" "has-pr" = true →
        WithLabel equalFold hasPRGroup "has-pr" ≠ []) := by
  refine ⟨?_, rfl, by decide, ?_⟩
  · induction S with
    | nil => simp [HasPR]
    | cons x rest ih =>
      by_cases h : hasPRLabel x.Labels = true
      · have h' := (hasPRLabel_iff x.Labels).mp h
        simp only [HasPR, h, if_true, List.mem_cons, exists_eq_or_imp, true_iff]
        exact Or.inl h'
      · have h' : ¬ ∃ lb ∈ x.Labels, lb.Name = "has-pr" :=
          fun c => h ((hasPRLabel_iff x.Labels).mpr c)
        simp only [HasPR, h, if_false, Bool.false_eq_true, ih, List.mem_cons,
          exists_eq_or_imp, h', false_or]
  · intro equalFold hfold
    rw [withLabel_eq]
    simp [hasPRGroup, mkLabelled, hfold]

/-- Witness of C14: the label `Has-PR` does not satisfy `HasPR`, although the
story is found by `WithLabel` with case folding at the ASCII level. -/
theorem hasPR_iff_witness :
    HasPR hasPRGroup = false ∧ WithLabel asciiEqualFold hasPRGroup "has-pr" ≠ [] ∧
      HasPR [mkLabelled 1 ["docs", "has-pr"] none] = true :=
  ⟨by decide, (hasPR_iff hasPRGroup).2.2.2 asciiEqualFold (by decide), by decide⟩

theorem unscheduled_iff (set : StorySet) :
    Unscheduled set = true ↔ ∀ s ∈ set, s.StoryType = StoryStateUnscheduled := by
  induction set with
  | nil => simp [Unscheduled]
  | cons x rest ih =>
    by_cases h : x.StoryType = StoryStateUnscheduled
    · simp [Unscheduled, h, ih]
    · simp [Unscheduled, h]

theorem untriaged_iff (set : StorySet) :
    Untriaged set = true ↔ ∀ s ∈ set, s.StoryType = StoryTypeChore := by
  induction set with
  | nil => simp [Untriaged]
  | cons x rest ih =>
    by_cases h : x.StoryType = StoryTypeChore
    · simp [Untriaged, h, ih]
    · simp [Untriaged, h]

/-- C15: `AllAccepted` is true exactly when every story is accepted,
`Unscheduled` exactly when the type of every story is the `unscheduled` marker
and `Untriaged` exactly when every story is a chore; all three are true on the
empty collection. -/
theorem aggregate_predicates (S : StorySet) :
    (AllAccepted S = true ↔ ∀ s ∈ S, s.State = "accepted") ∧
      (Unscheduled S = true ↔ ∀ s ∈ S, s.StoryType = "unscheduled") ∧
      (Untriaged S = true ↔ ∀ s ∈ S, s.StoryType = "chore") ∧
      AllAccepted [] = true ∧ Unscheduled [] = true ∧ Untriaged [] = true :=
  ⟨allAccepted_iff S, unscheduled_iff S, untriaged_iff S, rfl, rfl, rfl⟩

theorem stage1Labels_cases (set : StorySet) :
    stage1Labels set = [] ∨ stage1Labels set = ["enhancement"] ∨ stage1Labels set = ["bug"] := by
  unfold stage1Labels
  split
  · exact Or.inr (Or.inl rfl)
  · split
    · exact Or.inr (Or.inr rfl)
    · exact Or.inl rfl

theorem issueLabels_ok_status (set : StorySet) (ls : List String)
    (h : IssueLabels set = .ok ls) :
    ∃ status, ls = stage1Labels set ++ status ∧
      ((∀ s ∈ set, s.State = "accepted") → status = []) ∧
      ((¬ ∀ s ∈ set, s.State = "accepted") →
        status = ["unscheduled"] ∨ status = ["scheduled"] ∨ status = ["in-flight"]) := by
  unfold IssueLabels at h
  simp only [typeLabels_eq] at h
  by_cases hacc : AllAccepted set = true
  · simp only [hacc, if_true, Except.ok.injEq] at h
    refine ⟨[], by simp [h], fun _ => rfl, ?_⟩
    intro c
    exact absurd ((allAccepted_iff set).mp hacc) c
  · simp only [hacc, if_false, Bool.false_eq_true] at h
    have hna : ¬ ∀ s ∈ set, s.State = "accepted" := fun c => hacc ((allAccepted_iff set).mpr c)
    rcases scan_ok_shape _ _ _ _ h with c | c | c
    · exact ⟨_, c, fun c' => absurd c' hna, fun _ => Or.inr (Or.inr rfl)⟩
    · exact ⟨_, c, fun c' => absurd c' hna, fun _ => Or.inr (Or.inl rfl)⟩
    · exact ⟨_, c, fun c' => absurd c' hna, fun _ => Or.inl rfl⟩

/-- C16: a list returned by `IssueLabels` is at most one type label
(`enhancement` or `bug`) followed by at most one status label (`unscheduled`,
`scheduled` or `in-flight`); it has a status label exactly when the collection
is not all accepted; its length is at most 2; every element is a key of
`storyStateLabels` and none is `discuss` or another key of `issueOnlyLabels`. -/
theorem issueLabels_vocabulary (S : StorySet) (ls : List String)
    (h : IssueLabels S = .ok ls) :
    ∃ typeLabel status, ls = typeLabel ++ status ∧
      (typeLabel = [] ∨ typeLabel = ["enhancement"] ∨ typeLabel = ["bug"]) ∧
      (status = [] ∨ status = ["unscheduled"] ∨ status = ["scheduled"] ∨
        status = ["in-flight"]) ∧
      (status ≠ [] ↔ ¬ ∀ s ∈ S, s.State = "accepted") ∧
      ls.length ≤ 2 ∧ "discuss" ∉ ls ∧
      (∀ x ∈ ls, x ∈ storyStateLabels.map Prod.fst) ∧
      (∀ x ∈ ls, x ∉ issueOnlyLabels.map Prod.fst) := by
  obtain ⟨status, hls, hacc, hna⟩ := issueLabels_ok_status S ls h
  have hstatus : status = [] ∨ status = ["unscheduled"] ∨ status = ["scheduled"] ∨
      status = ["in-flight"] := by
    by_cases c : ∀ s ∈ S, s.State = "accepted"
    · exact Or.inl (hacc c)
    · exact Or.inr (hna c)
  have hiff : status ≠ [] ↔ ¬ ∀ s ∈ S, s.State = "accepted" := by
    constructor
    · intro hne c
      exact hne (hacc c)
    · intro c
      rcases hna c with e | e | e <;> simp [e]
  refine ⟨stage1Labels S, status, hls, stage1Labels_cases S, hstatus, hiff, ?_⟩
  subst hls
  rcases stage1Labels_cases S with e1 | e1 | e1 <;>
    rcases hstatus with e2 | e2 | e2 | e2 <;>
    · rw [e1, e2]
      decide

/-- Witness of C16 on a started bug with an unscheduled story. -/
theorem issueLabels_vocabulary_witness :
    IssueLabels startedGroup = .ok ["bug", "in-flight"] ∧
      ∃ typeLabel status, ["bug", "in-flight"] = typeLabel ++ status ∧
        (typeLabel = [] ∨ typeLabel = ["enhancement"] ∨ typeLabel = ["bug"]) ∧
        (status = [] ∨ status = ["unscheduled"] ∨ status = ["scheduled"] ∨
          status = ["in-flight"]) ∧
        (status ≠ [] ↔ ¬ ∀ s ∈ startedGroup, s.State = "accepted") ∧
        ["bug", "in-flight"].length ≤ 2 ∧ "discuss" ∉ ["bug", "in-flight"] ∧
        (∀ x ∈ ["bug", "in-flight"], x ∈ storyStateLabels.map Prod.fst) ∧
        (∀ x ∈ ["bug", "in-flight"], x ∉ issueOnlyLabels.map Prod.fst) :=
  ⟨by decide, issueLabels_vocabulary startedGroup ["bug", "in-flight"] (by decide)⟩

/-! ## Dedupe and the order and ids of its input -/

theorem run_perm {set : StorySet} {order : List (dupeEquivalence × StorySet)}
    (hperm : List.Perm order (byEquivalence set))
    (hids : (set.map (fun s => s.ID)).Nodup) :
    List.Perm ((dedupeLoop order).1 ++ (dedupeLoop order).2) set := by
  rw [dedupeLoop_eq]
  refine (loop_perm order ?_).trans
    (((hperm.map Prod.snd).flatten).trans (byEquivalence_flatten set))
  intro e he
  obtain ⟨hne, hb⟩ := order_entry hperm e he
  refine ⟨hne, ?_⟩
  rw [hb]
  exact List.Nodup.sublist ((List.filter_sublist set).map _) hids

/-- The canonical stories of a run are the stories whose id is the smallest
among the stories of the input with their key. -/
theorem mem_canonical {set : StorySet} {order : List (dupeEquivalence × StorySet)}
    (hperm : List.Perm order (byEquivalence set))
    (hids : (set.map (fun s => s.ID)).Nodup) (hpos : ∀ s ∈ set, 0 < s.ID) (c : Story) :
    c ∈ (dedupeLoop order).1 ↔
      c ∈ set ∧ ∀ t ∈ set, equivalenceOf t = equivalenceOf c → c.ID ≤ t.ID := by
  have hbucketPos : ∀ e ∈ order, ∀ t ∈ e.2, 0 < t.ID := by
    intro e he t ht
    rw [(order_entry hperm e he).2] at ht
    exact hpos t (List.mem_filter.mp ht).1
  rw [dedupeLoop_eq]
  simp only [List.mem_map]
  constructor
  · rintro ⟨e, he, rfl⟩
    obtain ⟨hcS, hck⟩ := oldestOf_key hperm e he
    refine ⟨hcS, ?_⟩
    intro t ht hkt
    have htb : t ∈ e.2 := by
      rw [(order_entry hperm e he).2, List.mem_filter]
      exact ⟨ht, by simp [hkt, hck]⟩
    exact oldestOf_le e.2 (hbucketPos e he) t htb
  · rintro ⟨hcS, hmin⟩
    have hk := (MapOf.byEquivalence set).complete c hcS
    obtain ⟨e, he, hek⟩ := List.mem_map.mp hk
    have he' : e ∈ order := hperm.mem_iff.mpr he
    obtain ⟨hoS, hok⟩ := oldestOf_key hperm e he'
    have hcb : c ∈ e.2 := by
      rw [(order_entry hperm e he').2, List.mem_filter]
      exact ⟨hcS, by simp [hek]⟩
    have h1 := oldestOf_le e.2 (hbucketPos e he') c hcb
    have h2 := hmin (oldestOf e.2) hoS (hok.trans hek)
    have hid : (oldestOf e.2).ID = c.ID := by omega
    exact ⟨e, he', List.inj_on_of_nodup_map hids hoS hcS hid⟩

/-- The discarded stories of a run are the stories of the input that are not
canonical. -/
theorem mem_discarded {set : StorySet} {order : List (dupeEquivalence × StorySet)}
    (hperm : List.Perm order (byEquivalence set))
    (hids : (set.map (fun s => s.ID)).Nodup) (d : Story) :
    d ∈ (dedupeLoop order).2 ↔ d ∈ set ∧ d ∉ (dedupeLoop order).1 := by
  have hp := run_perm hperm hids
  have hnd : ((dedupeLoop order).1 ++ (dedupeLoop order).2).Nodup :=
    hp.nodup_iff.mpr (List.Nodup.of_map _ hids)
  have hdisj := (List.nodup_append.mp hnd).2.2
  constructor
  · intro hd
    exact ⟨hp.mem_iff.mp (List.mem_append_right _ hd), fun c => hdisj c hd⟩
  · rintro ⟨hd, hn⟩
    rcases List.mem_append.mp (hp.mem_iff.mpr hd) with c | c
    · exact absurd c hn
    · exact c

/-- C17: the outputs of `Dedupe` do not depend on the order of the input: for
a collection with pairwise distinct positive ids and a permutation of it, the
canonical outputs of any two runs are permutations of each other and so are the
discarded outputs. -/
theorem dedupe_perm (S S' : StorySet) (hids : (S.map (fun s => s.ID)).Nodup)
    (hpos : ∀ s ∈ S, 0 < s.ID) (hperm : List.Perm S' S)
    (out out' : StorySet × StorySet) (hrun : DedupeRun S out) (hrun' : DedupeRun S' out') :
    List.Perm out'.1 out.1 ∧ List.Perm out'.2 out.2 := by
  obtain ⟨order, ho, rfl⟩ := hrun
  obtain ⟨order', ho', rfl⟩ := hrun'
  have hids' : (S'.map (fun s => s.ID)).Nodup := (hperm.map _).nodup_iff.mpr hids
  have hpos' : ∀ s ∈ S', 0 < s.ID := fun s hs => hpos s (hperm.mem_iff.mp hs)
  have hnd : ((dedupeLoop order).1 ++ (dedupeLoop order).2).Nodup :=
    (run_perm ho hids).nodup_iff.mpr (List.Nodup.of_map _ hids)
  have hnd' : ((dedupeLoop order').1 ++ (dedupeLoop order').2).Nodup :=
    (run_perm ho' hids').nodup_iff.mpr (List.Nodup.of_map _ hids')
  have hcanon : ∀ c, c ∈ (dedupeLoop order').1 ↔ c ∈ (dedupeLoop order).1 := by
    intro c
    rw [mem_canonical ho' hids' hpos', mem_canonical ho hids hpos]
    simp only [hperm.mem_iff]
  constructor
  · exact (List.perm_ext_iff_of_nodup hnd'.of_append_left hnd.of_append_left).mpr hcanon
  · refine (List.perm_ext_iff_of_nodup hnd'.of_append_right hnd.of_append_right).mpr ?_
    intro d
    rw [mem_discarded ho' hids', mem_discarded ho hids, hcanon d, hperm.mem_iff]

/-- Witness of C17: three stories and their reverse. -/
theorem dedupe_perm_witness :
    List.Perm (Dedupe sampleDupes.reverse).1 (Dedupe sampleDupes).1 ∧
      List.Perm (Dedupe sampleDupes.reverse).2 (Dedupe sampleDupes).2 :=
  dedupe_perm sampleDupes sampleDupes.reverse (by decide) (by decide)
    (List.reverse_perm sampleDupes) (Dedupe sampleDupes) (Dedupe sampleDupes.reverse)
    ⟨byEquivalence sampleDupes, List.Perm.refl _, rfl⟩
    ⟨byEquivalence sampleDupes.reverse, List.Perm.refl _, rfl⟩

/-- In every run, a discarded story and the canonical story of its key have
different ids: a story of a bucket with the id of the survivor is not appended
to `dupes`. -/
theorem discarded_id_ne {set : StorySet} {order : List (dupeEquivalence × StorySet)}
    (hperm : List.Perm order (byEquivalence set)) (c d : Story)
    (hc : c ∈ (dedupeLoop order).1) (hd : d ∈ (dedupeLoop order).2)
    (hkey : equivalenceOf c = equivalenceOf d) : c.ID ≠ d.ID := by
  rw [dedupeLoop_eq] at hc hd
  simp only [List.mem_map] at hc
  obtain ⟨e, he, rfl⟩ := hc
  simp only [List.mem_flatten, List.mem_map] at hd
  obtain ⟨l, ⟨e', he', rfl⟩, hdl⟩ := hd
  unfold dupesOf at hdl
  rw [List.mem_filter] at hdl
  obtain ⟨hdb, hne⟩ := hdl
  simp only [ne_eq, decide_not, Bool.not_eq_true', decide_eq_false_iff_not] at hne
  have hdk : equivalenceOf d = e'.1 := by
    rw [(order_entry hperm e' he').2, List.mem_filter] at hdb
    exact of_decide_eq_true hdb.2
  have hck := (oldestOf_key hperm e he).2
  have hfst : e.1 = e'.1 := by rw [← hck, hkey, hdk]
  have hee : e = e' := by
    have hnd := order_nodupKeys hperm
    exact List.inj_on_of_nodup_map hnd he he' hfst
  subst hee
  exact fun c => hne c.symm

/-- C18: without distinct ids `Dedupe` loses stories: for two stories with the
same key and the same id 7 that differ in their state, every run returns fewer
stories than it was given, one canonical story and no discarded story; in
every run of every collection a discarded story and the canonical story of its
key have different ids. -/
theorem dedupe_loses_same_id :
    (∃ a ∈ sameIdGroup, ∃ b ∈ sameIdGroup,
        a ≠ b ∧ a.ID = b.ID ∧ equivalenceOf a = equivalenceOf b) ∧
      (∀ out, DedupeRun sameIdGroup out →
        out = ([mkStory 7 "bug" "started"], []) ∧
          out.1.length + out.2.length < sameIdGroup.length) ∧
      (∀ S out, DedupeRun S out → ∀ c ∈ out.1, ∀ d ∈ out.2,
        equivalenceOf c = equivalenceOf d → c.ID ≠ d.ID) := by
  refine ⟨by decide, ?_, ?_⟩
  · rintro out ⟨order, hperm, rfl⟩
    have hmap : byEquivalence sameIdGroup =
        [(equivalenceOf (mkStory 7 "bug" "started"), sameIdGroup)] := by decide
    rw [hmap] at hperm
    rw [hperm.eq_singleton]
    constructor <;> decide
  · rintro S out ⟨order, hperm, rfl⟩ c hc d hd hkey
    exact discarded_id_ne hperm c d hc hd hkey

/-! ## The key of `Dedupe` and the label names -/

theorem intercalate_go_data (l : List String) (acc : String) :
    (String.intercalate.go acc "," l).data =
      acc.data ++ (l.map (fun x => comma :: x.data)).flatten := by
  induction l generalizing acc with
  | nil => simp [String.intercalate.go]
  | cons a rest ih =>
    simp only [String.intercalate.go, ih, String.data_append, List.map_cons,
      List.flatten_cons, List.append_assoc]
    rfl

theorem intercalate_data (l : List String) :
    (String.intercalate "," l).data = joinedChars (l.map String.data) := by
  cases l with
  | nil => rfl
  | cons a rest =>
    simp only [String.intercalate, intercalate_go_data, joinedChars, List.map_cons, List.map_map]
    rfl

/-- Two names without a comma, each followed by nothing or by a comma, are
equal when the two texts are equal, and so are the texts after them. -/
theorem name_cancel (a b ra rb : List Char) (ha : comma ∉ a) (hb : comma ∉ b)
    (hra : ra = [] ∨ ∃ r, ra = comma :: r) (hrb : rb = [] ∨ ∃ r, rb = comma :: r)
    (h : a ++ ra = b ++ rb) : a = b ∧ ra = rb := by
  induction a generalizing b with
  | nil =>
    cases b with
    | nil => exact ⟨rfl, by simpa using h⟩
    | cons y b' =>
      exfalso
      simp only [List.nil_append, List.cons_append] at h
      rcases hra with hra | ⟨r, hra⟩
      · rw [hra] at h
        cases h
      · rw [hra] at h
        simp only [List.cons.injEq] at h
        exact hb (by simp [← h.1])
  | cons x a' ih =>
    cases b with
    | nil =>
      exfalso
      simp only [List.nil_append, List.cons_append] at h
      rcases hrb with hrb | ⟨r, hrb⟩
      · rw [hrb] at h
        cases h
      · rw [hrb] at h
        simp only [List.cons.injEq] at h
        exact ha (by simp [h.1])
    | cons y b' =>
      simp only [List.cons_append, List.cons.injEq] at h
      have ha' : comma ∉ a' := fun c => ha (List.mem_cons_of_mem _ c)
      have hb' : comma ∉ b' := fun c => hb (List.mem_cons_of_mem _ c)
      obtain ⟨h1, h2⟩ := ih b' ha' hb' h.2
      exact ⟨by rw [h.1, h1], h2⟩

theorem tail_shape (l : List (List Char)) :
    (l.map (fun x => comma :: x)).flatten = [] ∨
      ∃ r, (l.map (fun x => comma :: x)).flatten = comma :: r := by
  cases l with
  | nil => exact Or.inl rfl
  | cons a rest => exact Or.inr ⟨_, rfl⟩

theorem tail_cancel (as bs : List (List Char)) (ha : ∀ x ∈ as, comma ∉ x)
    (hb : ∀ x ∈ bs, comma ∉ x)
    (h : (as.map (fun x => comma :: x)).flatten = (bs.map (fun x => comma :: x)).flatten) :
    as = bs := by
  induction as generalizing bs with
  | nil =>
    cases bs with
    | nil => rfl
    | cons b bs' => simp at h
  | cons a as' ih =>
    cases bs with
    | nil => simp at h
    | cons b bs' =>
      simp only [List.map_cons, List.flatten_cons, List.cons_append, List.cons.injEq,
        true_and] at h
      obtain ⟨h1, h2⟩ := name_cancel a b _ _ (ha a (by simp)) (hb b (by simp))
        (tail_shape as') (tail_shape bs') h
      rw [h1, ih bs' (fun x hx => ha x (by simp [hx])) (fun x hx => hb x (by simp [hx])) h2]

/-- Joining names without a comma loses nothing, except that no name and the
single empty name are both joined to the empty text. -/
theorem joinedChars_cancel (l1 l2 : List (List Char)) (h1 : ∀ x ∈ l1, comma ∉ x)
    (h2 : ∀ x ∈ l2, comma ∉ x) (h : joinedChars l1 = joinedChars l2) :
    l1 = l2 ∨ (l1 = [] ∧ l2 = [[]]) ∨ (l1 = [[]] ∧ l2 = []) := by
  cases l1 with
  | nil =>
    cases l2 with
    | nil => exact Or.inl rfl
    | cons b bs =>
      right
      left
      simp only [joinedChars] at h
      have hb : b = [] := by
        cases b with
        | nil => rfl
        | cons y b' => simp at h
      subst hb
      cases bs with
      | nil => exact ⟨rfl, rfl⟩
      | cons c cs => simp at h
  | cons a as =>
    cases l2 with
    | nil =>
      right
      right
      simp only [joinedChars] at h
      have ha : a = [] := by
        cases a with
        | nil => rfl
        | cons y a' => simp at h
      subst ha
      cases as with
      | nil => exact ⟨rfl, rfl⟩
      | cons c cs => simp at h
    | cons b bs =>
      left
      simp only [joinedChars] at h
      obtain ⟨e1, e2⟩ := name_cancel a b _ _ (h1 a (by simp)) (h2 b (by simp))
        (tail_shape as) (tail_shape bs) h
      rw [e1, tail_cancel as bs (fun x hx => h1 x (by simp [hx]))
        (fun x hx => h2 x (by simp [hx])) e2]

theorem intercalate_cancel (l1 l2 : List String) (h1 : ∀ x ∈ l1, comma ∉ x.toList)
    (h2 : ∀ x ∈ l2, comma ∉ x.toList)
    (h : String.intercalate "," l1 = String.intercalate "," l2) :
    l1 = l2 ∨ (l1 = [] ∧ l2 = [""]) ∨ (l1 = [""] ∧ l2 = []) := by
  have hdata : joinedChars (l1.map String.data) = joinedChars (l2.map String.data) := by
    rw [← intercalate_data, ← intercalate_data, h]
  have hinj : Function.Injective String.data := fun s t hst => String.ext hst
  have hc1 : ∀ x ∈ l1.map String.data, comma ∉ x := by
    intro x hx
    obtain ⟨s, hs, rfl⟩ := List.mem_map.mp hx
    exact h1 s hs
  have hc2 : ∀ x ∈ l2.map String.data, comma ∉ x := by
    intro x hx
    obtain ⟨s, hs, rfl⟩ := List.mem_map.mp hx
    exact h2 s hs
  rcases joinedChars_cancel _ _ hc1 hc2 hdata with c | ⟨c1, c2⟩ | ⟨c1, c2⟩
  · exact Or.inl (List.map_injective_iff.mpr hinj c)
  · right
    left
    refine ⟨by simpa using c1, ?_⟩
    apply List.map_injective_iff.mpr hinj
    rw [c2]
    rfl
  · right
    right
    refine ⟨?_, by simpa using c2⟩
    apply List.map_injective_iff.mpr hinj
    rw [c1]
    rfl

theorem sortStrings_eq_nil {xs : List String} (h : sortStrings xs = []) : xs = [] :=
  List.perm_nil.mp (h ▸ (sortStrings_perm xs).symm)

theorem sortStrings_eq_singleton {xs : List String} {x : String} (h : sortStrings xs = [x]) :
    xs = [x] :=
  List.perm_singleton.mp (h ▸ (sortStrings_perm xs).symm)

/-- C19, as stated, fails: a story without labels and a story whose single
label has the empty name have no comma in a label name and have the same key,
but not the same label names. -/
theorem equivalenceOf_empty_label :
    (∀ lb ∈ noLabelStory.Labels, comma ∉ lb.Name.toList) ∧
      (∀ lb ∈ emptyLabelStory.Labels, comma ∉ lb.Name.toList) ∧
      equivalenceOf noLabelStory = equivalenceOf emptyLabelStory ∧
      ¬ List.Perm (noLabelStory.Labels.map (fun l => l.Name))
          (emptyLabelStory.Labels.map (fun l => l.Name)) :=
  ⟨by decide, by decide, by decide, fun h => absurd h.length_eq (by decide)⟩

/-- C19, amended: for two stories none of whose label names contains a comma,
other than a story without labels together with a story whose single label has
the empty name, the keys are equal exactly when the names are equal, the
descriptions are equal and the label names are the same up to order. -/
theorem equivalenceOf_eq_iff (a b : Story)
    (ha : ∀ lb ∈ a.Labels, comma ∉ lb.Name.toList)
    (hb : ∀ lb ∈ b.Labels, comma ∉ lb.Name.toList)
    (hab : ¬ (a.Labels.map (fun l => l.Name) = [] ∧ b.Labels.map (fun l => l.Name) = [""]))
    (hba : ¬ (a.Labels.map (fun l => l.Name) = [""] ∧ b.Labels.map (fun l => l.Name) = [])) :
    equivalenceOf a = equivalenceOf b ↔
      a.Name = b.Name ∧ a.Description = b.Description ∧
        List.Perm (a.Labels.map (fun l => l.Name)) (b.Labels.map (fun l => l.Name)) := by
  have hca : ∀ x ∈ sortStrings (a.Labels.map (fun l => l.Name)), comma ∉ x.toList := by
    intro x hx
    obtain ⟨lb, hlb, rfl⟩ := List.mem_map.mp ((sortStrings_perm _).mem_iff.mp hx)
    exact ha lb hlb
  have hcb : ∀ x ∈ sortStrings (b.Labels.map (fun l => l.Name)), comma ∉ x.toList := by
    intro x hx
    obtain ⟨lb, hlb, rfl⟩ := List.mem_map.mp ((sortStrings_perm _).mem_iff.mp hx)
    exact hb lb hlb
  constructor
  · intro h
    simp only [equivalenceOf, labelNames_eq, dupeEquivalence.mk.injEq] at h
    refine ⟨h.1, h.2.1, ?_⟩
    rcases intercalate_cancel _ _ hca hcb h.2.2 with c | ⟨c1, c2⟩ | ⟨c1, c2⟩
    · exact ((sortStrings_perm _).symm.trans (c ▸ List.Perm.refl _)).trans (sortStrings_perm _)
    · exact absurd ⟨sortStrings_eq_nil c1, sortStrings_eq_singleton c2⟩ hab
    · exact absurd ⟨sortStrings_eq_singleton c1, sortStrings_eq_nil c2⟩ hba
  · rintro ⟨hn, hd, hl⟩
    simp only [equivalenceOf, labelNames_eq, hn, hd, sortStrings_congr hl]

/-- Witness of the amended C19: the same labels in another order give the same
key. -/
theorem equivalenceOf_eq_iff_witness :
    equivalenceOf permutedA = equivalenceOf permutedB ↔
      permutedA.Name = permutedB.Name ∧ permutedA.Description = permutedB.Description ∧
        List.Perm (permutedA.Labels.map (fun l => l.Name))
          (permutedB.Labels.map (fun l => l.Name)) :=
  equivalenceOf_eq_iff permutedA permutedB (by decide) (by decide) (by decide) (by decide)

/-- Witness of C18: the run that visits the map in insertion order. -/
theorem dedupe_loses_same_id_witness :
    (Dedupe sameIdGroup).1.length + (Dedupe sameIdGroup).2.length < sameIdGroup.length :=
  (dedupe_loses_same_id.2.1 (Dedupe sameIdGroup)
    ⟨byEquivalence sameIdGroup, List.Perm.refl _, rfl⟩).2

end Tracksuit
